import Mathlib

/-!
Verification of `src/quote_generator/generate_quote_image.py`.

The script selects a quote from a fixed table, renders it into an SVG string
(`make_svg_text_block`), and optionally rasterizes the same quote with PIL
(`rasterize_svg_to_png`).  Both renderers wrap the quote with Python's
`textwrap` module at width 32, so the first part of this file is a faithful
embedding of CPython's `textwrap.wrap` / `textwrap.fill` with the default
options used by the script (`expand_tabs=True`, `tabsize=8`,
`replace_whitespace=True`, `fix_sentence_endings=False`,
`break_long_words=True`, `drop_whitespace=True`, `break_on_hyphens=True`,
`max_lines=None`).  Strings are modelled as `List Char`; loops that are not
structurally recursive take an explicit iteration budget (`fuel`) that the
top-level wrappers instantiate with a provably sufficient value.
-/

namespace QuoteGen

/-- The six characters of `textwrap._whitespace`; `_munge_whitespace`
translates each of them to a plain space. -/
def isWrapSpace (c : Char) : Bool :=
  c = '\t' || c = '\n' || c = '\x0b' || c = '\x0c' || c = '\r' || c = ' '

/-- Python's `str.isspace` / `str.strip` whitespace set (the exact set of
Unicode code points for which `chr(c).isspace()` holds). -/
def isPySpace (c : Char) : Bool :=
  (0x9 ≤ c.toNat && c.toNat ≤ 0xd) ||
  (0x1c ≤ c.toNat && c.toNat ≤ 0x20) ||
  c.toNat = 0x85 || c.toNat = 0xa0 || c.toNat = 0x1680 ||
  (0x2000 ≤ c.toNat && c.toNat ≤ 0x200a) ||
  c.toNat = 0x2028 || c.toNat = 0x2029 ||
  c.toNat = 0x202f || c.toNat = 0x205f || c.toNat = 0x3000

/-- The regex class `\w` of `textwrap.TextWrapper.wordsep_re`.  Exact on the
ASCII range; code points at or above U+0080 are approximated as word
characters when they are not Python whitespace (all inputs appearing in the
theorems below are ASCII, where the class is exact). -/
def isWordChar (c : Char) : Bool :=
  c.isAlphanum || c = '_' || (0x80 ≤ c.toNat && !(isPySpace c))

/-- The regex class `[^\d\W]` (word characters that are not digits). -/
def isLetterChar (c : Char) : Bool :=
  isWordChar c && !c.isDigit

/-- The regex class `[\w!"\'&.,?]` (`word_punct`). -/
def isWordPunct (c : Char) : Bool :=
  isWordChar c || c = '!' || c = '"' || c.toNat = 39 || c = '&' ||
  c = '.' || c = ',' || c = '?'

/-- `str.expandtabs(8)`: each tab becomes `8 - col % 8` spaces, where the
column count restarts after `\n` and `\r`. -/
def expandTabsGo : List Char → Nat → List Char
  | [], _ => []
  | c :: rest, col =>
    if c = '\t' then
      List.replicate (8 - col % 8) ' ' ++ expandTabsGo rest (col + (8 - col % 8))
    else if c = '\n' || c = '\r' then
      c :: expandTabsGo rest 0
    else
      c :: expandTabsGo rest (col + 1)

/-- `TextWrapper._munge_whitespace`: expand tabs, then translate the six
`_whitespace` characters to spaces. -/
def mungeWhitespace (text : List Char) : List Char :=
  (expandTabsGo text 0).map (fun c => if isWrapSpace c then ' ' else c)

/-- Lookbehind of the hyphenated-word branch of `wordsep_re`, evaluated just
before the candidate hyphen: `(?<=[lt][lt]-)` or `(?<=[lt]-[lt]-)` where
`ctxRev` lists the characters before the hyphen, nearest first. -/
def hyphenLookbehind (ctxRev : List Char) : Bool :=
  match ctxRev with
  | a :: b :: rest =>
    (isLetterChar a && isLetterChar b) ||
    (isLetterChar a && b = '-' &&
      (match rest with | c :: _ => isLetterChar c | [] => false))
  | _ => false

/-- Lookahead `(?=[lt]-?[lt])` of the hyphenated-word branch, applied to the
text after the candidate hyphen. -/
def hyphenLookahead : List Char → Bool
  | a :: '-' :: c :: _ => isLetterChar a && isLetterChar c
  | a :: b :: _ => isLetterChar a && isLetterChar b
  | _ => false

/-- Does the text start with an em-dash in the sense of `wordsep_re`:
two or more hyphens followed by a word character? -/
def emDashAhead (text : List Char) : Bool :=
  match text.dropWhile (fun x => x = '-') with
  | w :: _ => 2 ≤ (text.takeWhile (fun x => x = '-')).length && isWordChar w
  | [] => false

/-- The word branch `[^ ]+?(?:...)` of `wordsep_re`: lazily extend a
non-space run until one of the three closing alternatives matches, in the
regex's order (consume a break hyphen / end of word / em-dash follows).
`prevRev` is the text before the chunk and `chunkRev` the consumed run,
both reversed; the lookbehinds read through chunk boundaries.  Returns the
chunk and the remaining text. -/
def wordScan (prevRev : List Char) : List Char → List Char → List Char × List Char
  | chunkRev, [] => (chunkRev.reverse, [])
  | chunkRev, r :: rs =>
    if r = ' ' then (chunkRev.reverse, r :: rs)
    else if r = '-' && hyphenLookbehind (chunkRev ++ prevRev) && hyphenLookahead rs then
      ((r :: chunkRev).reverse, rs)
    else if isWordPunct (chunkRev.headD ' ') && emDashAhead (r :: rs) then
      (chunkRev.reverse, r :: rs)
    else wordScan prevRev (r :: chunkRev) rs

/-- One pass of `wordsep_re` over munged text (whose only whitespace is the
plain space): emit the next chunk trying the regex's three top-level
alternatives in order.  `prevRev` is the already-scanned text, reversed; the
fuel dominates the number of emitted chunks, each of which is non-empty. -/
def splitChunksGo : Nat → List Char → List Char → List (List Char)
  | 0, _, _ => []
  | _ + 1, _, [] => []
  | fuel + 1, prevRev, c :: rest =>
    let p :=
      if c = ' ' then
        ((c :: rest).takeWhile (fun x => x = ' '),
         (c :: rest).dropWhile (fun x => x = ' '))
      else if isWordPunct (prevRev.headD ' ') && emDashAhead (c :: rest) then
        ((c :: rest).takeWhile (fun x => x = '-'),
         (c :: rest).dropWhile (fun x => x = '-'))
      else wordScan prevRev [c] rest
    p.1 :: splitChunksGo fuel (p.1.reverse ++ prevRev) p.2

/-- `TextWrapper._split` on munged text (the `break_on_hyphens=True` regex;
no produced chunk is empty, so the filter of empty strings is a no-op). -/
def pySplit (text : List Char) : List (List Char) :=
  splitChunksGo (text.length + 1) [] text

/-- `chunk.strip() == ''`: the chunk is made of Python whitespace only. -/
def chunkAllSpace (c : List Char) : Bool := c.all isPySpace

/-- The inner `while` of `_wrap_chunks`: greedily move chunks onto the
current line while they fit.  Returns the consumed chunks in order, the
resulting line length, and the remaining chunks. -/
def takeFits (width : Nat) : Nat → List (List Char) → List (List Char) × Nat × List (List Char)
  | curLen, [] => ([], curLen, [])
  | curLen, c :: rest =>
    if curLen + c.length ≤ width then
      let r := takeFits width (curLen + c.length) rest
      (c :: r.1, r.2.1, r.2.2)
    else ([], curLen, c :: rest)

/-- `chunk.rfind('-', 0, stop)`: index of the last hyphen strictly before
`stop`, if any. -/
def rfindHyphen (chunk : List Char) (stop : Nat) : Option Nat :=
  (((chunk.take stop).enum.filter (fun p => p.2 = '-')).map (fun p => p.1)).getLast?

/-- `TextWrapper._handle_long_word` with `break_long_words=True` and
`break_on_hyphens=True`: split the overlong chunk, preferring to break just
after the last hyphen that fits and is preceded by some non-hyphen.  Returns
the slice for the current line and the remainder of the chunk. -/
def handleLongWord (width curLen : Nat) (chunk : List Char) : List Char × List Char :=
  let spaceLeft := if width < 1 then 1 else width - curLen
  let endN :=
    if chunk.length > spaceLeft then
      match rfindHyphen chunk spaceLeft with
      | some h =>
        if 0 < h && (chunk.take h).any (fun c => c ≠ '-') then h + 1 else spaceLeft
      | none => spaceLeft
    else spaceLeft
  (chunk.take endN, chunk.drop endN)

/-- Drop the last chunk of the current line when it is all whitespace
(the `drop_whitespace` trailing rule of `_wrap_chunks`). -/
def dropLastIfSpace (cur : List (List Char)) : List (List Char) :=
  match cur.getLast? with
  | some c => if chunkAllSpace c then cur.dropLast else cur
  | none => cur

/-- Drop the leading whitespace chunk of a line, but only once at least
one line has been emitted (the `drop_whitespace` leading rule of
`_wrap_chunks`; `hasLines` mirrors `lines` being non-empty). -/
def dropLeadingWs (hasLines : Bool) (chunks : List (List Char)) : List (List Char) :=
  match chunks with
  | c :: rest => if hasLines && chunkAllSpace c then rest else chunks
  | [] => []

/-- Fill one line: run the inner `while` loop, then split the next chunk
when it is too big to fit on any line (`_handle_long_word`).  Returns the
chunks of the current line and the remaining chunks. -/
def fillLine (width : Nat) (chunks1 : List (List Char)) :
    List (List Char) × List (List Char) :=
  let t := takeFits width 0 chunks1
  match t.2.2 with
  | c :: rest =>
    if c.length > width then
      let hl := handleLongWord width t.2.1 c
      (t.1 ++ [hl.1], hl.2 :: rest)
    else (t.1, c :: rest)
  | [] => (t.1, [])

/-- One iteration of the outer `while chunks` loop of `_wrap_chunks`
(with `max_lines=None` and empty indents): possibly drop a leading
whitespace chunk, fill the line, drop a trailing whitespace chunk, and
emit the joined line if non-empty.  Returns the emitted line (if any) and
the remaining chunks. -/
def wrapStep (width : Nat) (hasLines : Bool) (chunks : List (List Char)) :
    Option (List Char) × List (List Char) :=
  let p := fillLine width (dropLeadingWs hasLines chunks)
  let cur2 := dropLastIfSpace p.1
  (if cur2.isEmpty then none else some cur2.flatten, p.2)

/-- The outer loop of `_wrap_chunks`; `hasLines` mirrors the `lines`
accumulator being non-empty.  The fuel dominates the number of iterations
(each iteration consumes at least one character or one chunk). -/
def wrapChunksGo (width : Nat) : Nat → Bool → List (List Char) → List (List Char)
  | 0, _, _ => []
  | _ + 1, _, [] => []
  | fuel + 1, hasLines, c :: rest =>
    let s := wrapStep width hasLines (c :: rest)
    match s.1 with
    | some l => l :: wrapChunksGo width fuel true s.2
    | none => wrapChunksGo width fuel hasLines s.2

/-- Iteration budget that provably dominates the run of `wrapChunksGo`. -/
def chunksFuel (chunks : List (List Char)) : Nat :=
  (chunks.map List.length).sum + chunks.length + 1

/-- `textwrap.wrap(text, width)` with the script's (default) options.
`_wrap_chunks` raises on `width <= 0`; the script only ever uses width 32. -/
def pythonWrap (width : Nat) (text : List Char) : List (List Char) :=
  let chunks := pySplit (mungeWhitespace text)
  wrapChunksGo width (chunksFuel chunks) false chunks

/-- `textwrap.fill(text, width)`: the wrapped lines joined with `"\n"`. -/
def pythonFill (width : Nat) (text : List Char) : List Char :=
  List.intercalate ['\n'] (pythonWrap width text)

/-! ## The quote table and `pick_quote` -/

/-- The fixed ten-entry `QUOTES` table of the script. -/
def QUOTES : List String :=
  ["The only limit to our realization of tomorrow is our doubts of today.",
   "Do something today that your future self will thank you for.",
   "Small steps every day lead to big changes over time.",
   "Believe you can and you're halfway there.",
   "Progress, not perfection.",
   "Start where you are. Use what you have. Do what you can.",
   "Your only limit is you.",
   "Dream big. Start small. Act now.",
   "Consistency compounds into results.",
   "Be stronger than your excuses."]

/-- `pick_quote`: `random.choice(QUOTES)` returns the entry at the index
drawn by the random source; the draw is modelled as the function's input. -/
def pick_quote (i : Fin QUOTES.length) : String := QUOTES.get i

/-! ## The vector renderer `make_svg_text_block` -/

/-- `str(n)` for a Python integer (Lean's `Int` printing agrees with it). -/
def intStr (n : Int) : List Char := (toString n).data

/-- The explicit line-break marker `<br/>` that the SVG template substitutes
for each `"\n"` of the filled text. -/
def brMarker : List Char := "<br/>".data

/-- `wrapped.replace('\n', '<br/>')`: for a single-character pattern,
Python's `str.replace` substitutes every occurrence of that character. -/
def replaceNewlines (marker : List Char) (text : List Char) : List Char :=
  text.flatMap (fun c => if c = '\n' then marker else [c])

/-- The text placed inside the innermost `<div>` of the SVG document:
the quote filled at width 32 with the line breaks replaced by `<br/>`. -/
def svgDivContent (quote : List Char) : List Char :=
  replaceNewlines brMarker (pythonFill 32 quote)

/-- The background rectangle element of the SVG template (source line 47). -/
def svgBgRect : List Char :=
  "<rect width=\"100%\" height=\"100%\" fill=\"#0f172a\" />".data

/-- The inset rounded-panel rectangle element of the SVG template
(source line 48), with the interpolated `size-80` dimensions. -/
def svgPanelRect (size : Int) : List Char :=
  "<rect x=\"40\" y=\"40\" width=\"".data ++ intStr (size - 80) ++
  "\" height=\"".data ++ intStr (size - 80) ++
  "\" rx=\"40\" ry=\"40\" fill=\"#0b1220\" opacity=\"0.9\" />".data

/-- The `viewBox` attribute of the `<svg>` element: `viewBox="0 0 size size"`. -/
def svgViewBoxAttr (size : Int) : List Char :=
  "viewBox=\"0 0 ".data ++ intStr size ++ " ".data ++ intStr size ++ "\"".data

/-- The `width` attribute of the `<svg>` element: `width="sizepx"`. -/
def svgWidthAttr (size : Int) : List Char :=
  "width=\"".data ++ intStr size ++ "px\"".data

/-- The `height` attribute of the `<svg>` element: `height="sizepx"`. -/
def svgHeightAttr (size : Int) : List Char :=
  "height=\"".data ++ intStr size ++ "px\"".data

/-- The document prefix up to and including the opening `<svg ...>` tag and
the indentation of the first rectangle. -/
def svgHeader (size : Int) : List Char :=
  "<?xml version=\"1.0\" encoding=\"UTF-8\"?>\n<svg xmlns=\"http://www.w3.org/2000/svg\" ".data ++
  svgWidthAttr size ++ " ".data ++ svgHeightAttr size ++ " ".data ++
  svgViewBoxAttr size ++ ">\n  ".data

/-- The fragment between the panel rectangle and the embedded text: the
`<g>` element, the `foreignObject` with its interpolated `size-160` and
`size-240` dimensions, and the nested `body`/`div` elements. -/
def svgMiddle (size : Int) : List Char :=
  "\n  <g fill=\"#ffffff\" font-family=\"-apple-system, BlinkMacSystemFont, 'Segoe UI', Roboto, 'Helvetica Neue', Arial\" font-size=\"48\">\n    <foreignObject x=\"80\" y=\"120\" width=\"".data ++
  intStr (size - 160) ++ "\" height=\"".data ++ intStr (size - 240) ++
  "\">\n      <body xmlns=\"http://www.w3.org/1999/xhtml\" style=\"margin:0;\">\n        <div style=\"font-size:48px; line-height:1.15; color:#ffffff; display:flex; align-items:center; justify-content:center; height:100%; text-align:center;\">\n          <div>".data

/-- The document suffix after the embedded text. -/
def svgFooter : List Char :=
  "</div>\n        </div>\n      </body>\n    </foreignObject>\n  </g>\n</svg>\n".data

/-- `make_svg_text_block(quote, size)`: the complete SVG document string
produced by the f-string template of source lines 45-59. -/
def make_svg_text_block (quote : List Char) (size : Int) : List Char :=
  svgHeader size ++ svgBgRect ++ "\n  ".data ++ svgPanelRect size ++
  svgMiddle size ++ svgDivContent quote ++ svgFooter

/-! ## Extraction of the marker-separated lines of the document -/

/-- Split `text` at each leftmost occurrence of `sep`, scanning left to
right and resuming after the matched occurrence; `accRev` is the reversed
pending piece.  The fuel dominates the scan (one unit per character). -/
def splitOnGo (sep : List Char) : Nat → List Char → List Char → List (List Char)
  | 0, text, accRev => [accRev.reverse ++ text]
  | _ + 1, [], accRev => [accRev.reverse]
  | fuel + 1, c :: rest, accRev =>
    if sep.isPrefixOf (c :: rest) then
      accRev.reverse :: splitOnGo sep fuel ((c :: rest).drop sep.length) []
    else
      splitOnGo sep fuel rest (c :: accRev)

/-- Split at every occurrence of a non-empty separator. -/
def splitOnMarker (sep text : List Char) : List (List Char) :=
  if sep.isEmpty then [text] else splitOnGo sep (text.length + 1) text []

/-- The list of lines embedded in the vector document: the pieces of the
innermost `<div>` content separated by the explicit `<br/>` markers. -/
def svgEmbeddedLines (quote : List Char) : List (List Char) :=
  splitOnMarker brMarker (svgDivContent quote)

/-! ## The raster renderer `rasterize_svg_to_png`

PIL is modelled as an abstract capability: `truetype` may fail on any font
path (a raised exception is `none`), and `textbbox` measures a string in a
font (the source always passes the `(0, 0)` anchor, which is absorbed).
The imaging side effects are recorded in a trace; when the capability flag
is false the function returns the `False` sentinel with an empty trace. -/

/-- An abstract PIL font handle. -/
structure PILFont where
  id : Nat
deriving DecidableEq, Repr

/-- A text bounding box `(left, top, right, bottom)` as returned by
`draw.textbbox`. -/
structure BBox where
  l : Int
  t : Int
  r : Int
  b : Int
deriving DecidableEq, Repr

/-- The ambient imaging capability: font loading and text measurement. -/
structure PILEnv where
  truetype : List Char → Nat → Option PILFont
  textbbox : PILFont → List Char → BBox

/-- `ImageFont.load_default()`. -/
def loadDefaultFont : PILFont := ⟨0⟩

/-- The hardcoded candidate font paths of the source (lines 75-79). -/
def possible_fonts : List (List Char) :=
  ["/Library/Fonts/Arial Unicode.ttf".data,
   "/Library/Fonts/Arial.ttf".data,
   "/System/Library/Fonts/SFNNSF-Regular.otf".data]

/-- The `for p in possible_fonts` loop of the source: `font` starts as
`None`; a successful `truetype(p, 48)` breaks out of the loop, a failure
sets `font = None` and continues. -/
def fontLoop (env : PILEnv) : Option PILFont → List (List Char) → Option PILFont
  | f, [] => f
  | _, p :: rest =>
    match env.truetype p 48 with
    | some f => some f
    | none => fontLoop env none rest

/-- The font actually used: the loop's result, or the default when the
loop left `font` as `None`. -/
def chosenFont (env : PILEnv) : PILFont :=
  match fontLoop env none possible_fonts with
  | some f => f
  | none => loadDefaultFont

/-- `line_h = bbox[3] - bbox[1]` for the sample glyph `"A"`. -/
def lineHeightOf (env : PILEnv) (font : PILFont) : Int :=
  let bb := env.textbbox font ['A']
  bb.b - bb.t

/-- One recorded `draw.text` call. -/
structure DrawnText where
  x : Int
  y : Int
  text : List Char
  color : Int × Int × Int
deriving DecidableEq, Repr

/-- The imaging side effects of one `rasterize_svg_to_png` call. -/
structure RasterTrace where
  created : Option (Int × Int × (Int × Int × Int))
  rects : List ((Int × Int × Int × Int) × (Int × Int × Int))
  fontUsed : Option PILFont
  texts : List DrawnText
  saved : Option (List Char)
deriving DecidableEq, Repr

/-- The trace of a call that performed no imaging work at all. -/
def emptyTrace : RasterTrace := ⟨none, [], none, [], none⟩

/-- The `for line in lines` loop: measure each line, centre it
horizontally (`(size - w) // 2`), draw it white, and advance `y` by the
measured height plus the fixed 6-unit spacing. -/
def drawTextLoop (env : PILEnv) (font : PILFont) (size : Int) :
    Int → List (List Char) → List DrawnText
  | _, [] => []
  | y, line :: rest =>
    let bb := env.textbbox font line
    let w := bb.r - bb.l
    let h := bb.b - bb.t
    ⟨Int.fdiv (size - w) 2, y, line, (255, 255, 255)⟩ ::
      drawTextLoop env font size (y + h + 6) rest

/-- `rasterize_svg_to_png(svg_path, png_path, size, quote)`: returns the
`False` sentinel immediately when PIL was not loaded at process start;
otherwise renders the quote (or `QUOTES[0]` when `quote is None`) onto a
`size`-square canvas and saves it to `png_path`.  `svg_path` is an unused
parameter of the source function. -/
def rasterize_svg_to_png (env : PILEnv) (pilAvailable : Bool)
    (svgPath pngPath : List Char) (size : Int) (quote : Option (List Char)) :
    Bool × RasterTrace :=
  if !pilAvailable then (false, emptyTrace)
  else
    let font := chosenFont env
    let margin : Int := 40
    let text := match quote with | some q => q | none => (QUOTES.getD 0 "").data
    let lines := pythonWrap 32 text
    let lineH := lineHeightOf env font
    let totalH := lineH * (lines.length : Int) + ((lines.length : Int) - 1) * 6
    let y0 := Int.fdiv (size - totalH) 2
    (true,
     { created := some (size, size, (15, 23, 42)),
       rects := [((margin, margin, size - margin, size - margin), (11, 18, 32))],
       fontUsed := some font,
       texts := drawTextLoop env font size y0 lines,
       saved := some pngPath })

/-- An imaging capability whose font files all fail to load and whose
text measurement is a fixed box (used to instantiate theorems). -/
def constEnv (bb : BBox) : PILEnv :=
  { truetype := fun _ _ => none, textbbox := fun _ _ => bb }

/-- `str.replace(sep, rep)`: the pieces between occurrences of `sep`,
joined with `rep`. -/
def replaceMarker (sep rep text : List Char) : List Char :=
  List.intercalate rep (splitOnMarker sep text)

/-- Joining whitespace-free words with single spaces. -/
def joinWords (words : List (List Char)) : List Char :=
  List.intercalate [' '] words

/-- The chunk sequence `w₁, " ", w₂, " ", …, wₙ` that `_split` produces on
a text of single-space-separated clean words. -/
def interleaveSp : List (List Char) → List (List Char)
  | [] => []
  | [w] => [w]
  | w :: w2 :: ws => w :: [' '] :: interleaveSp (w2 :: ws)

/-- A word is clean when it is non-empty, fits the width, and contains
neither Python whitespace nor a hyphen. -/
def cleanWord (w : List Char) : Prop :=
  w ≠ [] ∧ w.length ≤ 32 ∧ ∀ c ∈ w, isPySpace c = false ∧ c ≠ '-'

/-- The combined length of the chunks of a line (`sum` of `map length`). -/
def msum (l : List (List Char)) : Nat := (l.map List.length).sum

/-! ## Supporting lemmas -/

/-! ### The chunks of `_split` partition the munged text -/

/-- The word scanner consumes an initial segment: chunk ++ remainder is the
context plus the input. -/
theorem wordScan_append (prevRev : List Char) :
    ∀ (text chunkRev : List Char),
      (wordScan prevRev chunkRev text).1 ++ (wordScan prevRev chunkRev text).2 =
        chunkRev.reverse ++ text := by
  intro text
  induction text with
  | nil => intro chunkRev; simp [wordScan]
  | cons r rs ih =>
    intro chunkRev
    rw [wordScan]
    split
    · simp
    · split
      · simp
      · split
        · simp
        · rw [ih (r :: chunkRev)]
          simp

/-- The word scanner's chunk is at least as long as its accumulator. -/
theorem wordScan_len (prevRev : List Char) :
    ∀ (text chunkRev : List Char),
      chunkRev.length ≤ (wordScan prevRev chunkRev text).1.length := by
  intro text
  induction text with
  | nil => intro chunkRev; simp [wordScan]
  | cons r rs ih =>
    intro chunkRev
    rw [wordScan]
    split
    · simp
    · split
      · simp
      · split
        · simp
        · calc chunkRev.length ≤ (r :: chunkRev).length := by simp
            _ ≤ _ := ih (r :: chunkRev)

/-- Splitting off the leading space run keeps all characters. -/
theorem takeWhile_dropWhile_append (p : Char → Bool) (l : List Char) :
    l.takeWhile p ++ l.dropWhile p = l :=
  List.takeWhile_append_dropWhile p l

/-- The chunks of one `splitChunksGo` run concatenate back to the text. -/
theorem splitChunksGo_flatten :
    ∀ (fuel : Nat) (prevRev text : List Char), text.length + 1 ≤ fuel →
      (splitChunksGo fuel prevRev text).flatten = text := by
  intro fuel
  induction fuel with
  | zero => intro prevRev text h; omega
  | succ n ih =>
    intro prevRev text h
    rcases text with _ | ⟨c, rest⟩
    · simp [splitChunksGo]
    · rw [splitChunksGo]
      by_cases hsp : c = ' '
      · simp only [if_pos hsp, List.flatten_cons]
        have happ := takeWhile_dropWhile_append (fun x => x = ' ') (c :: rest)
        have htk : (c :: rest).takeWhile (fun x => x = ' ') =
            c :: rest.takeWhile (fun x => x = ' ') :=
          List.takeWhile_cons_of_pos (by simp [hsp])
        have hfl : ((c :: rest).dropWhile (fun x => x = ' ')).length + 1 ≤ n := by
          have := congrArg List.length happ
          rw [htk] at this
          simp at this h ⊢
          omega
        rw [ih _ _ hfl]
        exact happ
      · simp only [if_neg hsp]
        by_cases hed : (isWordPunct (prevRev.headD ' ') && emDashAhead (c :: rest)) = true
        · simp only [hed, if_true, List.flatten_cons]
          have happ := takeWhile_dropWhile_append (fun x => x = '-') (c :: rest)
          have htk : 2 ≤ ((c :: rest).takeWhile (fun x => x = '-')).length := by
            have hed' := hed
            simp only [Bool.and_eq_true] at hed'
            obtain ⟨_, he⟩ := hed'
            unfold emDashAhead at he
            rcases hdw : (c :: rest).dropWhile (fun x => x = '-') with _ | ⟨w, ws⟩
            · rw [hdw] at he; simp at he
            · rw [hdw] at he
              simp only [Bool.and_eq_true, decide_eq_true_eq] at he
              exact he.1
          have hl2 : ((c :: rest).takeWhile (fun x => x = '-')).length +
              ((c :: rest).dropWhile (fun x => x = '-')).length = rest.length + 1 := by
            have := congrArg List.length happ
            rw [List.length_append] at this
            simpa using this
          have h' : rest.length + 1 + 1 ≤ n + 1 := by simpa using h
          rw [ih _ _ (by omega)]
          exact happ
        · simp only [hed, Bool.false_eq_true, if_false, List.flatten_cons]
          have hws := wordScan_append prevRev rest [c]
          have hlen : 1 ≤ (wordScan prevRev [c] rest).1.length := by
            simpa using wordScan_len prevRev rest [c]
          have hl2 : (wordScan prevRev [c] rest).1.length +
              (wordScan prevRev [c] rest).2.length = rest.length + 1 := by
            have := congrArg List.length hws
            rw [List.length_append] at this
            simpa using this
          have h' : rest.length + 1 + 1 ≤ n + 1 := by simpa using h
          rw [ih _ _ (by omega)]
          simpa using hws

/-- The chunk list produced by `pySplit` concatenates to its input. -/
theorem pySplit_flatten (text : List Char) : (pySplit text).flatten = text :=
  splitChunksGo_flatten (text.length + 1) [] text (le_refl _)

/-! ### Every emitted line is a contiguous piece of the munged text -/

/-- The chunks consumed and left by the line-filling loop concatenate to
the input chunks. -/
theorem takeFits_chunks (width : Nat) :
    ∀ (chunks : List (List Char)) (curLen : Nat),
      (takeFits width curLen chunks).1 ++ (takeFits width curLen chunks).2.2 = chunks := by
  intro chunks
  induction chunks with
  | nil => intro c; simp [takeFits]
  | cons a t ih =>
    intro c
    by_cases h : c + a.length ≤ width
    · simp only [takeFits, if_pos h, List.cons_append, List.cons.injEq, true_and]
      exact ih (c + a.length)
    · simp [takeFits, h]

/-- Removing a trailing whitespace chunk shortens the joined line to a
prefix. -/
theorem dropLastIfSpace_flatten_prefix (cur : List (List Char)) :
    (dropLastIfSpace cur).flatten <+: cur.flatten := by
  unfold dropLastIfSpace
  rcases hgl : cur.getLast? with _ | c
  · exact List.prefix_refl _
  · by_cases hsp : chunkAllSpace c
    · simp only [if_pos hsp]
      rcases (List.dropLast_prefix cur) with ⟨t, ht⟩
      exact ⟨t.flatten, by rw [← List.flatten_append, ht]⟩
    · simp [hsp]

/-- The leading-whitespace drop removes a (possibly empty) prefix of the
joined chunks. -/
theorem dropLeadingWs_flatten (hasLines : Bool) (chunks : List (List Char)) :
    ∃ dflat, chunks.flatten = dflat ++ (dropLeadingWs hasLines chunks).flatten := by
  unfold dropLeadingWs
  rcases chunks with _ | ⟨c, rest⟩
  · exact ⟨[], rfl⟩
  · by_cases hdrop : hasLines && chunkAllSpace c
    · exact ⟨c, by simp [hdrop]⟩
    · exact ⟨[], by simp [hdrop]⟩

/-- The long-word handler slices its chunk into two halves. -/
theorem handleLongWord_append (width curLen : Nat) (chunk : List Char) :
    (handleLongWord width curLen chunk).1 ++ (handleLongWord width curLen chunk).2 = chunk :=
  List.take_append_drop _ chunk

/-- The line chunks and the remaining chunks of `fillLine` concatenate to
the input. -/
theorem fillLine_flatten (width : Nat) (chunks1 : List (List Char)) :
    (fillLine width chunks1).1.flatten ++ (fillLine width chunks1).2.flatten =
      chunks1.flatten := by
  simp only [fillLine]
  split
  · rename_i c rest hrem
    by_cases hbig : c.length > width
    · simp only [if_pos hbig]
      conv_rhs => rw [← takeFits_chunks width chunks1 0, hrem]
      have hcsplit := handleLongWord_append width (takeFits width 0 chunks1).2.1 c
      simp only [List.flatten_append, List.flatten_cons, List.flatten_nil,
        List.append_nil, List.append_assoc]
      conv_rhs => rw [← hcsplit]
      simp [List.append_assoc]
    · simp only [if_neg hbig]
      conv_rhs => rw [← takeFits_chunks width chunks1 0, hrem]
      simp
  · rename_i hrem
    conv_rhs => rw [← takeFits_chunks width chunks1 0, hrem]
    simp

/-- One wrapping iteration splits the joined chunks as `pre ++ rest`,
with any emitted line an infix of `pre`. -/
theorem wrapStep_flatten_decomp (width : Nat) (hasLines : Bool)
    (chunks : List (List Char)) :
    ∃ pre, chunks.flatten = pre ++ ((wrapStep width hasLines chunks).2).flatten ∧
      ∀ l, (wrapStep width hasLines chunks).1 = some l → l <:+: pre := by
  obtain ⟨dflat, hd⟩ := dropLeadingWs_flatten hasLines chunks
  refine ⟨dflat ++ (fillLine width (dropLeadingWs hasLines chunks)).1.flatten, ?_, ?_⟩
  · show chunks.flatten =
      _ ++ ((fillLine width (dropLeadingWs hasLines chunks)).2).flatten
    rw [hd, ← fillLine_flatten width (dropLeadingWs hasLines chunks)]
    simp [List.append_assoc]
  · intro l hl
    unfold wrapStep at hl
    by_cases hemp : (dropLastIfSpace (fillLine width (dropLeadingWs hasLines chunks)).1).isEmpty
    · simp [hemp] at hl
    · simp only [hemp, Bool.false_eq_true, if_neg, ite_false, Option.some.injEq] at hl
      subst hl
      rcases dropLastIfSpace_flatten_prefix
        (fillLine width (dropLeadingWs hasLines chunks)).1 with ⟨tl, htl⟩
      exact ⟨dflat, tl, by rw [List.append_assoc, htl]⟩

/-- Every line of the wrapping loop is an infix of the joined chunks. -/
theorem wrapChunksGo_infix (width : Nat) :
    ∀ (fuel : Nat) (hasLines : Bool) (chunks : List (List Char)) (line : List Char),
      line ∈ wrapChunksGo width fuel hasLines chunks → line <:+: chunks.flatten := by
  intro fuel
  induction fuel with
  | zero => intro hasLines chunks line h; simp [wrapChunksGo] at h
  | succ n ih =>
    intro hasLines chunks line h
    rcases chunks with _ | ⟨c, rest⟩
    · simp [wrapChunksGo] at h
    · rw [wrapChunksGo] at h
      rcases wrapStep_flatten_decomp width hasLines (c :: rest) with ⟨pre, hpre, hline⟩
      have hsuf : ((wrapStep width hasLines (c :: rest)).2).flatten <:+ (c :: rest).flatten :=
        ⟨pre, hpre.symm⟩
      rcases hs : (wrapStep width hasLines (c :: rest)).1 with _ | l
      · rw [hs] at h
        exact (ih _ _ _ h).trans hsuf.isInfix
      · rw [hs] at h
        rcases List.mem_cons.1 h with h1 | h2
        · subst h1
          exact (hline line hs).trans ⟨[], _, by simpa using hpre.symm⟩
        · exact (ih _ _ _ h2).trans hsuf.isInfix

/-- Every line of `textwrap.wrap` is an infix of the munged input text. -/
theorem pythonWrap_line_infix (width : Nat) (text line : List Char)
    (h : line ∈ pythonWrap width text) : line <:+: mungeWhitespace text := by
  unfold pythonWrap at h
  have := wrapChunksGo_infix width _ _ _ _ h
  rwa [pySplit_flatten] at this

/-! ### Whitespace munging creates no newline and no new marker -/

/-- The munged text contains no newline (every `"\n"` became a space). -/
theorem mungeWhitespace_no_newline (text : List Char) :
    '\n' ∉ mungeWhitespace text := by
  unfold mungeWhitespace
  intro h
  rcases List.mem_map.1 h with ⟨c, _, hc⟩
  by_cases hwc : isWrapSpace c = true
  · rw [if_pos hwc] at hc
    exact absurd hc (by decide)
  · rw [if_neg hwc] at hc
    subst hc
    exact absurd (by decide : isWrapSpace '\n' = true) hwc

/-- A pattern without munge-whitespace characters occurring as a prefix of
the munged text occurs as a prefix of the pre-munge text. -/
theorem prefix_munge_map (p : List Char) (hp : ∀ c ∈ p, isWrapSpace c = false) :
    ∀ text : List Char,
      p <+: text.map (fun c => if isWrapSpace c then ' ' else c) → p <+: text := by
  induction p with
  | nil => intro text _; exact List.nil_prefix
  | cons a p' ih =>
    intro text hpre
    rcases text with _ | ⟨x, xs⟩
    · simp at hpre
    · simp only [List.map_cons, List.cons_prefix_cons] at hpre
      obtain ⟨ha, hrest⟩ := hpre
      have hax : a = x := by
        by_cases hx : isWrapSpace x = true
        · rw [if_pos hx] at ha
          subst ha
          exact absurd (hp ' ' (by simp)) (by decide)
        · rw [if_neg hx] at ha; exact ha
      exact List.cons_prefix_cons.2
        ⟨hax, ih (fun c hc => hp c (List.mem_cons_of_mem a hc)) xs hrest⟩

/-- A pattern without munge-whitespace characters occurring inside the
munged text occurs inside the pre-munge text. -/
theorem infix_munge_map (p : List Char) (hp : ∀ c ∈ p, isWrapSpace c = false) :
    ∀ text : List Char,
      p <:+: text.map (fun c => if isWrapSpace c then ' ' else c) → p <:+: text := by
  intro text
  induction text with
  | nil => intro h; simp at h; simp [h]
  | cons x xs ih =>
    intro h
    rw [List.map_cons, List.infix_cons_iff] at h
    rcases h with h | h
    · exact (prefix_munge_map p hp (x :: xs) (by simpa using h)).isInfix
    · exact List.infix_cons (ih h)

/-- A space-free pattern inside spaces-then-`y` lies inside `y`. -/
theorem infix_drop_replicate (p : List Char) (hsp : ' ' ∉ p) :
    ∀ (n : Nat) (y : List Char), p <:+: (List.replicate n ' ' ++ y) → p <:+: y := by
  intro n
  induction n with
  | zero => intro y h; simpa using h
  | succ m ih =>
    intro y h
    rw [List.replicate_succ, List.cons_append, List.infix_cons_iff] at h
    rcases h with h | h
    · rcases p with _ | ⟨a, p'⟩
      · exact List.nil_infix
      · rw [List.cons_prefix_cons] at h
        exact absurd h.1.symm (by intro hx; exact hsp (hx ▸ List.mem_cons_self a p'))
    · exact ih y h

/-- A pattern without tabs or spaces occurring as a prefix of the
tab-expanded text occurs as a prefix of the original. -/
theorem prefix_expandTabs :
    ∀ (text p : List Char), '\t' ∉ p → ' ' ∉ p →
      ∀ col : Nat, p <+: expandTabsGo text col → p <+: text := by
  intro text
  induction text with
  | nil => intro p _ _ col h; simpa [expandTabsGo] using h
  | cons c rest ih =>
    intro p hpt hps col h
    rw [expandTabsGo] at h
    rcases p with _ | ⟨a, p'⟩
    · exact List.nil_prefix
    · have htl : '\t' ∉ p' := fun hx => hpt (List.mem_cons_of_mem a hx)
      have hsl : ' ' ∉ p' := fun hx => hps (List.mem_cons_of_mem a hx)
      by_cases hct : c = '\t'
      · rw [if_pos hct] at h
        exfalso
        have hpad : 8 - col % 8 = (8 - col % 8 - 1) + 1 := by omega
        rw [hpad, List.replicate_succ, List.cons_append, List.cons_prefix_cons] at h
        exact hps (h.1 ▸ List.mem_cons_self a p')
      · rw [if_neg hct] at h
        by_cases hcn : (c = '\n' || c = '\r') = true
        · rw [if_pos hcn, List.cons_prefix_cons] at h
          exact List.cons_prefix_cons.2 ⟨h.1, ih p' htl hsl 0 h.2⟩
        · rw [if_neg hcn, List.cons_prefix_cons] at h
          exact List.cons_prefix_cons.2 ⟨h.1, ih p' htl hsl (col + 1) h.2⟩

/-- A pattern without tabs or spaces occurring inside the tab-expanded
text occurs inside the original. -/
theorem infix_expandTabs :
    ∀ (text p : List Char), '\t' ∉ p → ' ' ∉ p →
      ∀ col : Nat, p <:+: expandTabsGo text col → p <:+: text := by
  intro text
  induction text with
  | nil =>
    intro p _ _ col h
    simp [expandTabsGo] at h
    simp [h]
  | cons c rest ih =>
    intro p hpt hps col h
    rw [expandTabsGo] at h
    by_cases hct : c = '\t'
    · rw [if_pos hct] at h
      have h2 := infix_drop_replicate p hps _ _ h
      exact List.infix_cons (ih p hpt hps _ h2)
    · rw [if_neg hct] at h
      have hcons : ∀ col' : Nat, p <:+: c :: expandTabsGo rest col' → p <:+: c :: rest := by
        intro col' hc
        rw [List.infix_cons_iff] at hc
        rcases hc with hc | hc
        · rcases p with _ | ⟨a, p'⟩
          · exact (List.nil_prefix (l := c :: rest)).isInfix
          · rw [List.cons_prefix_cons] at hc
            have := prefix_expandTabs rest p'
              (fun hx => hpt (List.mem_cons_of_mem a hx))
              (fun hx => hps (List.mem_cons_of_mem a hx)) col' hc.2
            exact (List.cons_prefix_cons.2 ⟨hc.1, this⟩).isInfix
        · exact List.infix_cons (ih p hpt hps col' hc)
      by_cases hcn : (c = '\n' || c = '\r') = true
      · rw [if_pos hcn] at h
        exact hcons 0 h
      · rw [if_neg hcn] at h
        exact hcons (col + 1) h

/-- A non-munge-whitespace pattern found inside the munged text is inside
the original text. -/
theorem infix_munge (p : List Char) (hp : ∀ c ∈ p, isWrapSpace c = false)
    (text : List Char) (h : p <:+: mungeWhitespace text) : p <:+: text := by
  unfold mungeWhitespace at h
  have h1 := infix_munge_map p hp _ h
  have hpt : '\t' ∉ p := fun hx => absurd (hp '\t' hx) (by decide)
  have hps : ' ' ∉ p := fun hx => absurd (hp ' ' hx) (by decide)
  exact infix_expandTabs text p hpt hps 0 h1

/-- Dropping the last chunk cannot increase the combined length. -/
theorem msum_dropLast_le (l : List (List Char)) : msum l.dropLast ≤ msum l := by
  induction l with
  | nil => simp [msum]
  | cons a t ih =>
    cases t with
    | nil => simp [msum]
    | cons b t2 =>
      simp only [List.dropLast_cons₂, msum, List.map_cons, List.sum_cons] at *
      omega

/-- The final length reported by the line-filling loop is the starting
length plus the combined length of the consumed chunks. -/
theorem takeFits_len (width : Nat) :
    ∀ (chunks : List (List Char)) (curLen : Nat),
      (takeFits width curLen chunks).2.1 = curLen + msum (takeFits width curLen chunks).1 := by
  intro chunks
  induction chunks with
  | nil => intro c; simp [takeFits, msum]
  | cons a t ih =>
    intro c
    by_cases h : c + a.length ≤ width
    · simp only [takeFits, if_pos h, msum, List.map_cons, List.sum_cons]
      have := ih (c + a.length)
      simp only [msum] at this
      omega
    · simp [takeFits, h, msum]

/-- The line-filling loop never exceeds the width. -/
theorem takeFits_le (width : Nat) :
    ∀ (chunks : List (List Char)) (curLen : Nat), curLen ≤ width →
      (takeFits width curLen chunks).2.1 ≤ width := by
  intro chunks
  induction chunks with
  | nil => intro c hc; simpa [takeFits] using hc
  | cons a t ih =>
    intro c hc
    by_cases h : c + a.length ≤ width
    · simp only [takeFits, if_pos h]
      exact ih (c + a.length) h
    · simpa [takeFits, h] using hc

/-- `rfind` searches only strictly below its bound. -/
theorem rfindHyphen_lt (chunk : List Char) (stop h : Nat)
    (hh : rfindHyphen chunk stop = some h) : h < stop := by
  unfold rfindHyphen at hh
  have hm := List.mem_of_getLast?_eq_some hh
  rcases List.mem_map.1 hm with ⟨p, hp, hph⟩
  have hpe := (List.mem_filter.1 hp).1
  have := List.mem_enum_iff_get?.1 hpe
  have hlt : p.1 < (chunk.take stop).length := by
    rcases List.get?_eq_some.1 this with ⟨hw, _⟩
    exact hw
  have : (chunk.take stop).length ≤ stop := by
    simp [List.length_take]
  omega

/-- The slice taken from an overlong chunk still fits: `end ≤ space_left`. -/
theorem handleLongWord_fits (width curLen : Nat) (chunk : List Char)
    (hw : 1 ≤ width) (hc : curLen ≤ width) :
    curLen + (handleLongWord width curLen chunk).1.length ≤ width := by
  unfold handleLongWord
  have hnw : ¬ width < 1 := by omega
  simp only [if_neg hnw]
  set spaceLeft := width - curLen with hs
  have hgoal : ∀ endN, endN ≤ spaceLeft → curLen + (chunk.take endN).length ≤ width := by
    intro endN hend
    have : (chunk.take endN).length ≤ endN := by simp [List.length_take]
    omega
  by_cases hlen : chunk.length > spaceLeft
  · simp only [if_pos hlen]
    split
    · rename_i h hfind
      have hlt := rfindHyphen_lt chunk spaceLeft h hfind
      split
      · exact hgoal (h + 1) (by omega)
      · exact hgoal spaceLeft (le_refl _)
    · exact hgoal spaceLeft (le_refl _)
  · simp only [if_neg hlen]
    exact hgoal spaceLeft (le_refl _)


/-! ### A quote with a visible character produces at least one line -/

/-- When the inner loop takes nothing, the chunks are untouched and the
head chunk does not fit. -/
theorem takeFits_nil_inv (width curLen : Nat) (chunks : List (List Char))
    (h : (takeFits width curLen chunks).1 = []) :
    (takeFits width curLen chunks).2.2 = chunks ∧
      ∀ c rest, chunks = c :: rest → ¬ (curLen + c.length ≤ width) := by
  rcases chunks with _ | ⟨x, xs⟩
  · exact ⟨by simp [takeFits], by intro c rest hcc; cases hcc⟩
  · by_cases hfit : curLen + x.length ≤ width
    · rw [takeFits, if_pos hfit] at h
      cases h
    · rw [takeFits, if_neg hfit] at h ⊢
      refine ⟨rfl, ?_⟩
      intro c rest hcc
      cases hcc
      exact hfit

/-- The slice cut from an overlong chunk at the start of a line is
non-empty. -/
theorem handleLongWord_slice_pos (width : Nat) (chunk : List Char)
    (hw : 1 ≤ width) (hlen : width < chunk.length) :
    1 ≤ (handleLongWord width 0 chunk).1.length := by
  unfold handleLongWord
  have hnw : ¬ width < 1 := by omega
  simp only [if_neg hnw, Nat.sub_zero, List.length_take]
  split
  · split
    · rename_i h hfind
      split
      · simp
        omega
      · simp
        omega
    · simp
      omega
  · simp
    omega

/-- The combined size (characters plus chunk count) never grows across
`fillLine`'s remainder. -/
theorem fillLine_mu_le (width : Nat) (chunks1 : List (List Char)) :
    msum (fillLine width chunks1).2 + (fillLine width chunks1).2.length ≤
      msum chunks1 + chunks1.length := by
  have hpart := takeFits_chunks width chunks1 0
  simp only [fillLine]
  split
  · rename_i c rest hrem
    by_cases hbig : c.length > width
    · simp only [if_pos hbig]
      have hc := handleLongWord_append width (takeFits width 0 chunks1).2.1 c
      have hlen : (handleLongWord width (takeFits width 0 chunks1).2.1 c).2.length ≤ c.length := by
        have := congrArg List.length hc
        simp only [List.length_append] at this
        omega
      have : msum (c :: rest) + (c :: rest).length ≤ msum chunks1 + chunks1.length := by
        conv_rhs => rw [← hpart, hrem]
        simp [msum, List.map_append, List.sum_append]
        omega
      simp only [msum, List.map_cons, List.sum_cons, List.length_cons] at this ⊢
      omega
    · simp only [if_neg hbig]
      conv_rhs => rw [← hpart, hrem]
      simp [msum, List.map_append, List.sum_append]
      omega
  · simp [msum]

/-- With a non-empty chunk list, `fillLine` strictly shrinks the combined
size. -/
theorem fillLine_mu_lt (width : Nat) (hw : 1 ≤ width) (chunks1 : List (List Char))
    (hne : chunks1 ≠ []) :
    msum (fillLine width chunks1).2 + (fillLine width chunks1).2.length <
      msum chunks1 + chunks1.length := by
  have hpart := takeFits_chunks width chunks1 0
  have hlen0 : (takeFits width 0 chunks1).2.1 = msum (takeFits width 0 chunks1).1 := by
    simpa using takeFits_len width chunks1 0
  simp only [fillLine]
  split
  · rename_i c rest hrem
    by_cases hbig : c.length > width
    · simp only [if_pos hbig]
      have hc := handleLongWord_append width (takeFits width 0 chunks1).2.1 c
      have hclen := congrArg List.length hc
      simp only [List.length_append] at hclen
      have hsum : msum chunks1 + chunks1.length =
          msum (takeFits width 0 chunks1).1 + (takeFits width 0 chunks1).1.length +
            (c.length + 1 + (msum rest + rest.length)) := by
        conv_lhs => rw [← hpart, hrem]
        simp [msum, List.map_append, List.sum_append]
        omega
      rcases htk : (takeFits width 0 chunks1).1 with _ | ⟨y, ys⟩
      · have hc0 : (takeFits width 0 chunks1).2.1 = 0 := by
          rw [hlen0, htk]; simp [msum]
        have hslice := handleLongWord_slice_pos width c hw hbig
        rw [hc0] at hclen
        rw [hc0]
        simp only [msum, List.map_cons, List.sum_cons, List.length_cons]
        rw [htk] at hsum
        simp only [msum, List.map_nil, List.sum_nil, List.length_nil] at hsum
        omega
      · simp only [msum, List.map_cons, List.sum_cons, List.length_cons]
        rw [htk] at hsum
        simp only [msum, List.map_cons, List.sum_cons, List.length_cons] at hsum
        omega
    · simp only [if_neg hbig]
      rcases htk : (takeFits width 0 chunks1).1 with _ | ⟨y, ys⟩
      · exfalso
        obtain ⟨hsame, hmis⟩ := takeFits_nil_inv width 0 chunks1 htk
        rw [hsame] at hrem
        exact absurd (by omega : 0 + c.length ≤ width) (hmis c rest hrem)
      · have hsum : msum chunks1 + chunks1.length =
            msum (y :: ys) + (y :: ys).length + (msum (c :: rest) + (c :: rest).length) := by
          conv_lhs => rw [← hpart, hrem, htk]
          simp [msum, List.map_append, List.sum_append]
          omega
        simp only [msum, List.map_cons, List.sum_cons, List.length_cons] at hsum ⊢
        omega
  · rename_i hrem
    have := congrArg (fun l => msum l + List.length l) hpart
    rw [hrem] at this
    simp only [List.append_nil] at this
    rcases htk : (takeFits width 0 chunks1).1 with _ | ⟨y, ys⟩
    · rw [htk] at this
      exfalso
      apply hne
      rw [← hpart, hrem, htk]
      rfl
    · rw [htk] at this
      simp only [msum, List.map_nil, List.sum_nil, List.length_nil,
        List.map_cons, List.sum_cons, List.length_cons] at this ⊢
      omega

/-- The leading-whitespace drop never grows the combined size, and keeps a
non-whitespace chunk. -/
theorem dropLeadingWs_mu_le (hasLines : Bool) (chunks : List (List Char)) :
    msum (dropLeadingWs hasLines chunks) + (dropLeadingWs hasLines chunks).length ≤
      msum chunks + chunks.length := by
  unfold dropLeadingWs
  rcases chunks with _ | ⟨c, rest⟩
  · simp
  · by_cases hdrop : (hasLines && chunkAllSpace c) = true
    · simp only [if_pos hdrop, msum, List.map_cons, List.sum_cons, List.length_cons]
      omega
    · simp [hdrop]

/-- The leading-whitespace drop keeps every non-whitespace chunk. -/
theorem dropLeadingWs_keep (hasLines : Bool) (chunks : List (List Char))
    (hex : ∃ ck ∈ chunks, chunkAllSpace ck = false) :
    ∃ ck ∈ dropLeadingWs hasLines chunks, chunkAllSpace ck = false := by
  obtain ⟨ck, hmem, hns⟩ := hex
  unfold dropLeadingWs
  rcases chunks with _ | ⟨c, rest⟩
  · cases hmem
  · by_cases hdrop : (hasLines && chunkAllSpace c) = true
    · simp only [if_pos hdrop]
      rcases List.mem_cons.1 hmem with h1 | h2
      · exfalso
        have hd2 := hdrop
        simp only [Bool.and_eq_true] at hd2
        rw [← h1, hns] at hd2
        exact absurd hd2.2 (by simp)
      · exact ⟨ck, h2, hns⟩
    · simp only [hdrop, Bool.false_eq_true, if_false]
      exact ⟨ck, hmem, hns⟩

/-- A cleared current line means the loop is at the start of the text or
just consumed a single all-whitespace chunk. -/
theorem dropLastIfSpace_nil_inv (cur : List (List Char))
    (h : dropLastIfSpace cur = []) :
    cur = [] ∨ ∃ x, cur = [x] ∧ chunkAllSpace x = true := by
  unfold dropLastIfSpace at h
  rcases hgl : cur.getLast? with _ | c
  · exact Or.inl (List.getLast?_eq_none_iff.1 hgl)
  · rw [hgl] at h
    have h2 : (if chunkAllSpace c = true then cur.dropLast else cur) = [] := h
    by_cases hsp : chunkAllSpace c = true
    · rw [if_pos hsp] at h2
      have hlen : cur.length ≤ 1 := by
        have := congrArg List.length h2
        simp [List.length_dropLast] at this
        omega
      rcases hc : cur with _ | ⟨a, rest⟩
      · exact Or.inl rfl
      · rcases rest with _ | ⟨b, r2⟩
        · refine Or.inr ⟨a, rfl, ?_⟩
          rw [hc] at hgl
          simp at hgl
          rwa [hgl]
        · rw [hc] at hlen
          simp at hlen
    · rw [if_neg hsp] at h2
      rw [h2] at hgl
      simp at hgl

/-- When an iteration emits no line, every non-whitespace chunk survives
into the remaining chunks. -/
theorem fillLine_none_keep (width : Nat) (chunks1 : List (List Char))
    (hnil : (fillLine width chunks1).1 = [] ∨
      ∃ x, (fillLine width chunks1).1 = [x] ∧ chunkAllSpace x = true)
    (hex : ∃ ck ∈ chunks1, chunkAllSpace ck = false) :
    ∃ ck ∈ (fillLine width chunks1).2, chunkAllSpace ck = false := by
  obtain ⟨ck, hmem, hns⟩ := hex
  have hpart := takeFits_chunks width chunks1 0
  revert hnil
  simp only [fillLine]
  split
  · rename_i c rest hrem
    by_cases hbig : c.length > width
    · simp only [if_pos hbig]
      intro hnil
      have htk : (takeFits width 0 chunks1).1 = [] := by
        rcases hnil with h1 | ⟨x, hx, _⟩
        · exact (List.append_eq_nil.1 h1).1
        · rcases hq : (takeFits width 0 chunks1).1 with _ | ⟨y, ys⟩
          · rfl
          · rw [hq] at hx
            rcases ys with _ | ⟨z, zs⟩
            · cases hx
            · simp at hx
      obtain ⟨hsame, _⟩ := takeFits_nil_inv width 0 chunks1 htk
      have hch : chunks1 = c :: rest := by rw [← hsame, hrem]
      rw [hch] at hmem
      rcases List.mem_cons.1 hmem with h1 | h2
      · obtain ⟨x, hx1, hx2⟩ : ∃ x, (takeFits width 0 chunks1).1 ++
            [(handleLongWord width (takeFits width 0 chunks1).2.1 c).1] = [x] ∧
            chunkAllSpace x = true := by
          rcases hnil with hn1 | hx
          · rw [htk, List.nil_append] at hn1; cases hn1
          · exact hx
        rw [htk, List.nil_append] at hx1
        have hxeq : (handleLongWord width (takeFits width 0 chunks1).2.1 c).1 = x := by
          injection hx1
        have hcsplit := handleLongWord_append width (takeFits width 0 chunks1).2.1 c
        have hres : chunkAllSpace
            (handleLongWord width (takeFits width 0 chunks1).2.1 c).2 = false := by
          have hall := congrArg (fun l => List.all l isPySpace) hcsplit
          simp only [List.all_append] at hall
          unfold chunkAllSpace at hns hx2 ⊢
          rw [hxeq] at hall
          rw [hx2] at hall
          rw [h1] at hns
          rw [← hall] at hns
          simpa using hns
        exact ⟨_, List.mem_cons_self _ _, hres⟩
      · exact ⟨ck, List.mem_cons_of_mem _ h2, hns⟩
    · simp only [if_neg hbig]
      intro hnil
      have hsplit := hpart
      rw [hrem] at hsplit
      rcases hnil with h1 | ⟨x, hx, hxsp⟩
      · exfalso
        obtain ⟨hsame, hmis⟩ := takeFits_nil_inv width 0 chunks1 h1
        rw [hsame] at hrem
        exact absurd (by omega : 0 + c.length ≤ width) (hmis c rest hrem)
      · rw [hx] at hsplit
        rw [← hsplit] at hmem
        rcases List.mem_append.1 hmem with h1 | h2
        · simp at h1
          rw [h1] at hns
          rw [hxsp] at hns
          cases hns
        · exact ⟨ck, h2, hns⟩
  · rename_i hrem
    intro hnil
    exfalso
    have hsplit := hpart
    rw [hrem, List.append_nil] at hsplit
    rw [← hsplit] at hmem
    rcases hnil with h1 | ⟨x, hx, hxsp⟩
    · rw [h1] at hmem
      cases hmem
    · rw [hx] at hmem
      simp at hmem
      rw [hmem] at hns
      rw [hxsp] at hns
      cases hns

/-- The `for p in possible_fonts` loop started with `font = None` returns
the first successfully loaded candidate, i.e. `List.findSome?`. -/
theorem fontLoop_eq_findSome (env : PILEnv) :
    ∀ l : List (List Char), fontLoop env none l = l.findSome? (fun p => env.truetype p 48) := by
  intro l
  induction l with
  | nil => rfl
  | cons p rest ih =>
    simp only [fontLoop, List.findSome?]
    cases env.truetype p 48 with
    | some f => rfl
    | none => simpa using ih

/-- The drawing loop draws exactly the wrapped lines, in order. -/
theorem drawTextLoop_texts (env : PILEnv) (font : PILFont) (size : Int) :
    ∀ (ls : List (List Char)) (y : Int),
      (drawTextLoop env font size y ls).map DrawnText.text = ls := by
  intro ls
  induction ls with
  | nil => intro y; rfl
  | cons l rest ih => intro y; simp [drawTextLoop, ih]

/-- The six munge-whitespace characters are all Python whitespace. -/
theorem wrapSpace_pySpace (c : Char) (h : isWrapSpace c = true) : isPySpace c = true := by
  unfold isWrapSpace at h
  simp only [Bool.or_eq_true, decide_eq_true_eq] at h
  rcases h with ((((h | h) | h) | h) | h) | h <;> subst h <;> decide

/-- Tab expansion keeps every non-tab character of the text. -/
theorem mem_expandTabs (c : Char) (hct : c ≠ '\t') :
    ∀ (text : List Char) (col : Nat), c ∈ text → c ∈ expandTabsGo text col := by
  intro text
  induction text with
  | nil => intro col h; cases h
  | cons d rest ih =>
    intro col h
    rw [expandTabsGo]
    by_cases hdt : d = '\t'
    · rcases List.mem_cons.1 h with h1 | h2
      · exact absurd (h1.trans hdt) hct
      · rw [if_pos hdt]
        exact List.mem_append_right _ (ih _ h2)
    · rw [if_neg hdt]
      rcases List.mem_cons.1 h with h1 | h2
      · by_cases hnr : (d = '\n' || d = '\r') = true
        · rw [if_pos hnr]; exact h1 ▸ List.mem_cons_self _ _
        · rw [if_neg hnr]; exact h1 ▸ List.mem_cons_self _ _
      · by_cases hnr : (d = '\n' || d = '\r') = true
        · rw [if_pos hnr]; exact List.mem_cons_of_mem _ (ih _ h2)
        · rw [if_neg hnr]; exact List.mem_cons_of_mem _ (ih _ h2)

/-- One wrap iteration strictly shrinks the combined chunk size. -/
theorem wrapStep_mu_lt (width : Nat) (hw : 1 ≤ width) (hasLines : Bool)
    (chunks : List (List Char)) (hne : chunks ≠ []) :
    msum (wrapStep width hasLines chunks).2 + (wrapStep width hasLines chunks).2.length <
      msum chunks + chunks.length := by
  have hstep : (wrapStep width hasLines chunks).2 =
      (fillLine width (dropLeadingWs hasLines chunks)).2 := rfl
  rw [hstep]
  rcases chunks with _ | ⟨c, rest⟩
  · exact absurd rfl hne
  · by_cases hdrop : (hasLines && chunkAllSpace c) = true
    · have hdl : dropLeadingWs hasLines (c :: rest) = rest := by
        simp only [dropLeadingWs]
        rw [if_pos hdrop]
      rw [hdl]
      have h1 := fillLine_mu_le width rest
      simp only [msum, List.map_cons, List.sum_cons, List.length_cons] at *
      omega
    · have hdl : dropLeadingWs hasLines (c :: rest) = c :: rest := by
        simp only [dropLeadingWs]
        rw [if_neg hdrop]
      rw [hdl]
      exact fillLine_mu_lt width hw (c :: rest) (by simp)

/-- When an iteration emits no line, a non-whitespace chunk survives. -/
theorem wrapStep_none_keep (width : Nat) (hasLines : Bool)
    (chunks : List (List Char))
    (hnone : (wrapStep width hasLines chunks).1 = none)
    (hex : ∃ ck ∈ chunks, chunkAllSpace ck = false) :
    ∃ ck ∈ (wrapStep width hasLines chunks).2, chunkAllSpace ck = false := by
  have hnil' : dropLastIfSpace (fillLine width (dropLeadingWs hasLines chunks)).1 = [] := by
    unfold wrapStep at hnone
    by_cases hemp : (dropLastIfSpace (fillLine width (dropLeadingWs hasLines chunks)).1).isEmpty
    · exact List.isEmpty_iff.1 hemp
    · simp only [hemp, Bool.false_eq_true, if_neg, ite_false] at hnone
      cases hnone
  have hnil := dropLastIfSpace_nil_inv _ hnil'
  have hex1 := dropLeadingWs_keep hasLines chunks hex
  show ∃ ck ∈ (fillLine width (dropLeadingWs hasLines chunks)).2, chunkAllSpace ck = false
  exact fillLine_none_keep width (dropLeadingWs hasLines chunks) hnil hex1

/-- With sufficient fuel, a chunk list containing a non-whitespace chunk
wraps to at least one line. -/
theorem wrapChunksGo_ne (width : Nat) (hw : 1 ≤ width) :
    ∀ (fuel : Nat) (chunks : List (List Char)) (hasLines : Bool),
      msum chunks + chunks.length + 1 ≤ fuel →
      (∃ ck ∈ chunks, chunkAllSpace ck = false) →
      wrapChunksGo width fuel hasLines chunks ≠ [] := by
  intro fuel
  induction fuel with
  | zero => intro chunks hasLines hf hex; omega
  | succ n ih =>
    intro chunks hasLines hf hex
    rcases hch : chunks with _ | ⟨c, rest⟩
    · rw [hch] at hex
      obtain ⟨ck, hmem, _⟩ := hex
      cases hmem
    · rw [hch] at hex hf
      rcases hs : (wrapStep width hasLines (c :: rest)).1 with _ | l
      · have hex2 := wrapStep_none_keep width hasLines (c :: rest) hs hex
        have hmu := wrapStep_mu_lt width hw hasLines (c :: rest) (by simp)
        simp only [wrapChunksGo, hs]
        exact ih _ _ (by omega) hex2
      · simp [wrapChunksGo, hs]

/-- A quote containing a non-whitespace character wraps to at least one
line. -/
theorem pythonWrap_ne_nil (text : List Char)
    (hex : ∃ c ∈ text, isPySpace c = false) :
    pythonWrap 32 text ≠ [] := by
  unfold pythonWrap
  apply wrapChunksGo_ne 32 (by omega)
  · exact le_of_eq rfl
  · obtain ⟨c, hc, hcs⟩ := hex
    have hws : isWrapSpace c = false := by
      cases hwsc : isWrapSpace c
      · rfl
      · exact absurd (wrapSpace_pySpace c hwsc) (by rw [hcs]; simp)
    have hct : c ≠ '\t' := by
      intro hx
      rw [hx] at hws
      exact absurd hws (by decide)
    have hmem1 : c ∈ expandTabsGo text 0 := mem_expandTabs c hct text 0 hc
    have hmem2 : c ∈ mungeWhitespace text := by
      unfold mungeWhitespace
      refine List.mem_map.2 ⟨c, hmem1, ?_⟩
      rw [hws]
      simp
    rw [← pySplit_flatten (mungeWhitespace text)] at hmem2
    obtain ⟨chunk, hckmem, hcmem⟩ := List.mem_flatten.1 hmem2
    refine ⟨chunk, hckmem, ?_⟩
    cases hall : chunkAllSpace chunk
    · rfl
    · unfold chunkAllSpace at hall
      have := List.all_eq_true.1 hall c hcmem
      rw [hcs] at this
      cases this

/-! ### Splitting on the marker inverts joining with the marker -/

/-- Scanning an empty text closes the pending piece. -/
theorem splitOnGo_nil (sep accRev : List Char) :
    ∀ fuel, splitOnGo sep fuel [] accRev = [accRev.reverse] := by
  intro fuel
  cases fuel with
  | zero => simp [splitOnGo]
  | succ n => rfl

/-- A prefix of an append is a prefix of the left part, or extends it. -/
theorem prefix_append_cases (p x y : List Char) (h : p <+: x ++ y) :
    p <+: x ∨ (x <+: p ∧ p.drop x.length <+: y) := by
  induction x generalizing p with
  | nil => exact Or.inr ⟨List.nil_prefix, by simpa using h⟩
  | cons a xs ih =>
    rcases p with _ | ⟨b, p'⟩
    · exact Or.inl List.nil_prefix
    · rw [List.cons_append, List.cons_prefix_cons] at h
      obtain ⟨hb, h2⟩ := h
      rcases ih p' h2 with h3 | ⟨h3, h4⟩
      · exact Or.inl (List.cons_prefix_cons.2 ⟨hb, h3⟩)
      · refine Or.inr ⟨List.cons_prefix_cons.2 ⟨hb.symm, h3⟩, ?_⟩
        simpa using h4

/-- While scanning a piece that does not contain the separator (and that
is followed by nothing or by the separator itself, which cannot overlap
itself), no match fires: the scan passes straight through the piece. -/
theorem splitOnGo_through (sep : List Char) (hsep : sep ≠ [])
    (hov : ∀ k, 0 < k → k < sep.length → sep.drop k ≠ sep.take (sep.length - k)) :
    ∀ (l1 : List Char), ¬ sep <:+: l1 →
      ∀ (tail : List Char), (tail = [] ∨ sep <+: tail) →
      ∀ (accRev : List Char) (fuel : Nat), l1.length ≤ fuel →
        splitOnGo sep fuel (l1 ++ tail) accRev =
          splitOnGo sep (fuel - l1.length) tail (l1.reverse ++ accRev) := by
  intro l1
  induction l1 with
  | nil => intro _ tail _ accRev fuel _; simp
  | cons c l1' ih =>
    intro hocc tail htail accRev fuel hfuel
    rcases fuel with _ | f
    · simp at hfuel
    · have hslen : 1 ≤ sep.length := by
        rcases sep with _ | ⟨s0, sr⟩
        · exact absurd rfl hsep
        · simp
      have hnp : ¬ sep <+: (c :: l1') ++ tail := by
        intro hpre
        rcases prefix_append_cases sep (c :: l1') tail hpre with h1 | ⟨h1, h2⟩
        · exact hocc h1.isInfix
        · rcases Nat.lt_or_ge (c :: l1').length sep.length with hlt | hge
          · rcases htail with ht0 | hts
            · rw [ht0, List.prefix_nil] at h2
              have h4 := congrArg List.length h2
              rw [List.length_drop] at h4
              simp only [List.length_nil] at h4
              omega
            · obtain ⟨t2, ht2⟩ := hts
              rw [← ht2] at h2
              rcases prefix_append_cases _ sep t2 h2 with h3 | ⟨h3, _⟩
              · have hdt := List.prefix_iff_eq_take.1 h3
                rw [List.length_drop] at hdt
                exact hov (c :: l1').length (by simp) hlt hdt
              · have h5 := h3.length_le
                rw [List.length_drop] at h5
                simp only [List.length_cons] at h5 hlt
                omega
          · have heq : sep = c :: l1' := by
              have hxs := List.prefix_iff_eq_take.1 h1
              have hxl : (c :: l1').length = sep.length := by
                have := h1.length_le
                omega
              rw [hxl, List.take_length] at hxs
              exact hxs.symm
            exact hocc (heq ▸ List.infix_rfl)
      rw [List.cons_append, splitOnGo]
      rw [if_neg (by
        intro hip
        exact hnp (by
          rw [List.cons_append]
          exact List.isPrefixOf_iff_prefix.1 hip))]
      have hocc' : ¬ sep <:+: l1' := fun hx => hocc (List.infix_cons hx)
      have hfl : l1'.length ≤ f := by
        simp only [List.length_cons] at hfuel
        omega
      rw [ih hocc' tail htail (c :: accRev) f hfl]
      simp [Nat.succ_sub_succ, List.append_assoc]

/-- Joining a single piece is that piece. -/
theorem intercalate_one (s a : List Char) : List.intercalate s [a] = a := by
  simp [List.intercalate]

/-- Joining at least two pieces starts with the first piece and the
separator. -/
theorem intercalate_two (s a b : List Char) (t : List (List Char)) :
    List.intercalate s (a :: b :: t) = a ++ s ++ List.intercalate s (b :: t) := by
  simp [List.intercalate, List.intersperse_cons₂, List.append_assoc]

/-- Splitting on a non-self-overlapping separator inverts joining with it,
whenever no piece contains the separator. -/
theorem splitOn_intercalate (sep : List Char) (hsep : sep ≠ [])
    (hov : ∀ k, 0 < k → k < sep.length → sep.drop k ≠ sep.take (sep.length - k)) :
    ∀ (lines : List (List Char)), lines ≠ [] → (∀ l ∈ lines, ¬ sep <:+: l) →
      ∀ fuel : Nat, (List.intercalate sep lines).length + 1 ≤ fuel →
        splitOnGo sep fuel (List.intercalate sep lines) [] = lines := by
  intro lines
  induction lines with
  | nil => intro h; exact absurd rfl h
  | cons l rest ih =>
    intro _ hocc fuel hfuel
    rcases rest with _ | ⟨l2, rest2⟩
    · rw [intercalate_one] at hfuel ⊢
      have h1 := splitOnGo_through sep hsep hov l (hocc l (by simp)) []
        (Or.inl rfl) [] fuel (by omega)
      rw [List.append_nil, List.append_nil] at h1
      rw [h1, splitOnGo_nil]
      simp
    · have hsl : 1 ≤ sep.length := by
        rcases sep with _ | ⟨s0, sr⟩
        · exact absurd rfl hsep
        · simp
      have hlen3 : l.length + sep.length +
          (List.intercalate sep (l2 :: rest2)).length + 1 ≤ fuel := by
        have h0 := hfuel
        rw [intercalate_two] at h0
        rw [List.length_append, List.length_append] at h0
        omega
      rw [intercalate_two, List.append_assoc]
      have h1 := splitOnGo_through sep hsep hov l (hocc l (by simp))
        (sep ++ List.intercalate sep (l2 :: rest2))
        (Or.inr (List.prefix_append _ _)) [] fuel (by omega)
      rw [h1, List.append_nil]
      obtain ⟨s0, sr, hs⟩ : ∃ s0 sr, sep = s0 :: sr := by
        rcases sep with _ | ⟨s0, sr⟩
        · exact absurd rfl hsep
        · exact ⟨s0, sr, rfl⟩
      rcases hf2 : fuel - l.length with _ | f2
      · omega
      · conv_lhs => rw [hs, List.cons_append]
        rw [splitOnGo]
        rw [if_pos (by
          rw [← List.cons_append, ← hs]
          exact List.isPrefixOf_iff_prefix.2 (List.prefix_append _ _))]
        rw [List.reverse_reverse, ← hs]
        have hdrop : List.drop sep.length
            (s0 :: (sr ++ List.intercalate sep (l2 :: rest2))) =
            List.intercalate sep (l2 :: rest2) := by
          rw [← List.cons_append, ← hs]
          exact List.drop_left _ _
        rw [hdrop]
        rw [ih (by simp) (fun x hx => hocc x (List.mem_cons_of_mem _ hx)) f2 (by omega)]

/-- `splitOnMarker` undoes `intercalate` for a non-self-overlapping
separator none of whose pieces contain it. -/
theorem splitOnMarker_intercalate (sep : List Char) (hsep : sep ≠ [])
    (hov : ∀ k, 0 < k → k < sep.length → sep.drop k ≠ sep.take (sep.length - k))
    (lines : List (List Char)) (hne : lines ≠ [])
    (hocc : ∀ l ∈ lines, ¬ sep <:+: l) :
    splitOnMarker sep (List.intercalate sep lines) = lines := by
  unfold splitOnMarker
  rw [if_neg (by simpa [List.isEmpty_iff] using hsep)]
  exact splitOn_intercalate sep hsep hov lines hne hocc _ (le_refl _)

/-- Replacing newlines in a piece without newlines changes nothing. -/
theorem replaceNewlines_id (marker : List Char) :
    ∀ l : List Char, '\n' ∉ l → replaceNewlines marker l = l := by
  intro l
  induction l with
  | nil => intro _; rfl
  | cons c cs ih =>
    intro h
    unfold replaceNewlines at ih ⊢
    rw [List.flatMap_cons]
    rw [if_neg (by
      intro hx
      exact h (hx ▸ List.mem_cons_self c cs))]
    rw [ih (fun hx => h (List.mem_cons_of_mem c hx))]
    rfl

/-- `replaceNewlines` distributes over append. -/
theorem replaceNewlines_append (marker x y : List Char) :
    replaceNewlines marker (x ++ y) =
      replaceNewlines marker x ++ replaceNewlines marker y := by
  unfold replaceNewlines
  exact List.flatMap_append x y _

/-- Replacing the newline separators of a fill by the marker produces the
marker-joined lines. -/
theorem replaceNewlines_intercalate (marker : List Char) :
    ∀ lines : List (List Char), (∀ l ∈ lines, '\n' ∉ l) →
      replaceNewlines marker (List.intercalate ['\n'] lines) =
        List.intercalate marker lines := by
  intro lines
  induction lines with
  | nil => intro _; rfl
  | cons l rest ih =>
    intro h
    rcases rest with _ | ⟨l2, rest2⟩
    · rw [intercalate_one, intercalate_one]
      exact replaceNewlines_id marker l (h l (by simp))
    · rw [intercalate_two, intercalate_two]
      rw [replaceNewlines_append, replaceNewlines_append]
      rw [replaceNewlines_id marker l (h l (by simp))]
      rw [ih (fun x hx => h x (List.mem_cons_of_mem _ hx))]
      have hnl : replaceNewlines marker ['\n'] = marker := by
        unfold replaceNewlines
        simp
      rw [hnl]

/-- No wrapped line contains a newline character. -/
theorem pythonWrap_no_newline (text line : List Char)
    (h : line ∈ pythonWrap 32 text) : '\n' ∉ line := by
  intro hx
  exact mungeWhitespace_no_newline text
    (( pythonWrap_line_infix 32 text line h).subset hx)

/-- When the quote does not contain the literal marker text, neither does
any wrapped line. -/
theorem pythonWrap_no_marker (text line : List Char)
    (hq : ¬ brMarker <:+: text) (h : line ∈ pythonWrap 32 text) :
    ¬ brMarker <:+: line := by
  intro hx
  exact hq (infix_munge brMarker (by decide) text
    (hx.trans ( pythonWrap_line_infix 32 text line h)))

/-- The marker `"<br/>"` cannot overlap itself. -/
theorem brMarker_no_overlap :
    ∀ k, 0 < k → k < brMarker.length →
      brMarker.drop k ≠ brMarker.take (brMarker.length - k) := by
  intro k hk hl
  have h5 : brMarker.length = 5 := rfl
  rw [h5] at hl
  interval_cases k <;> decide

/-- Core refinement: when the quote has a visible (non-whitespace)
character and does not itself contain the literal marker text, the lines
embedded in the vector document between the `<br/>` markers are exactly
the wrapped lines. -/
theorem embedded_eq_wrap (quote : List Char)
    (hvis : ∃ c ∈ quote, isPySpace c = false)
    (hm : ¬ brMarker <:+: quote) :
    svgEmbeddedLines quote = pythonWrap 32 quote := by
  unfold svgEmbeddedLines svgDivContent pythonFill
  rw [replaceNewlines_intercalate brMarker (pythonWrap 32 quote)
    (fun l hl => pythonWrap_no_newline quote l hl)]
  exact splitOnMarker_intercalate brMarker (by decide) brMarker_no_overlap
    (pythonWrap 32 quote) (pythonWrap_ne_nil quote hvis)
    (fun l hl => pythonWrap_no_marker quote l hm hl)

/-- Claim C6: every quote returned by `pick_quote` is a member of the fixed
ten-entry `QUOTES` table (the table is a constant of the model, so it is
never mutated). -/
theorem pick_quote_in_table :
    QUOTES.length = 10 ∧ ∀ i : Fin QUOTES.length, pick_quote i ∈ QUOTES :=
  ⟨rfl, fun i => List.get_mem QUOTES i.1 i.2⟩

/-- Claim C4: when the cached capability flag is false,
`rasterize_svg_to_png` returns the `False` sentinel with an entirely empty
effect trace (no canvas created, no rectangle drawn, no text drawn, no file
saved), for every combination of its arguments. -/
theorem rasterize_unavailable_no_effects
    (env : PILEnv) (svgPath pngPath : List Char) (size : Int)
    (quote : Option (List Char)) :
    rasterize_svg_to_png env false svgPath pngPath size quote = (false, emptyTrace) ∧
    emptyTrace.created = none ∧ emptyTrace.rects = [] ∧
    emptyTrace.texts = [] ∧ emptyTrace.saved = none :=
  ⟨rfl, rfl, rfl, rfl, rfl⟩

/-- Claim C9: the result of `rasterize_svg_to_png` (both the returned flag
and every recorded imaging effect) does not depend on the `svg_path`
argument: the function never reads the SVG file. -/
theorem rasterize_ignores_svg_path
    (env : PILEnv) (pil : Bool) (svgPath1 svgPath2 pngPath : List Char)
    (size : Int) (quote : Option (List Char)) :
    rasterize_svg_to_png env pil svgPath1 pngPath size quote =
      rasterize_svg_to_png env pil svgPath2 pngPath size quote := rfl

/-- Claim C7: the raster renderer uses the first candidate font path that
loads successfully at size 48, and the built-in default face when every
candidate fails; the selection itself never fails. -/
theorem raster_font_selection
    (env : PILEnv) (svgPath pngPath : List Char) (size : Int)
    (quote : Option (List Char)) :
    (rasterize_svg_to_png env true svgPath pngPath size quote).2.fontUsed =
      some ((possible_fonts.findSome? (fun p => env.truetype p 48)).getD loadDefaultFont) := by
  show some (chosenFont env) = _
  unfold chosenFont
  rw [fontLoop_eq_findSome]
  cases possible_fonts.findSome? (fun p => env.truetype p 48) with
  | some f => rfl
  | none => rfl

/-- Claim C10: with `quote = None` and the capability available, the raster
renderer draws the wrapped lines of `QUOTES[0]` — the first entry of the
fixed table (whose value is stated explicitly) — rather than anything read
from the previously written vector file. -/
theorem raster_none_quote_uses_first_entry
    (env : PILEnv) (svgPath pngPath : List Char) (size : Int) :
    ((rasterize_svg_to_png env true svgPath pngPath size none).2.texts).map DrawnText.text =
      pythonWrap 32 (QUOTES.getD 0 "").data ∧
    QUOTES.getD 0 "" =
      "The only limit to our realization of tomorrow is our doubts of today." := by
  refine ⟨?_, rfl⟩
  show (drawTextLoop env (chosenFont env) size _ _).map DrawnText.text = _
  exact drawTextLoop_texts _ _ _ _ _

/-- Claim C5: for a quote wrapping into `n ≥ 1` lines, the raster
renderer's first drawn line sits at
`y = (size - (line_h * n + 6 * (n - 1))) // 2` (Python floor division),
where `line_h` is the measured reference line height. -/
theorem raster_block_centering
    (env : PILEnv) (svgPath pngPath : List Char) (size : Int) (quote : List Char)
    (h : 0 < (pythonWrap 32 quote).length) :
    ((rasterize_svg_to_png env true svgPath pngPath size (some quote)).2.texts.map DrawnText.y).head? =
      some (Int.fdiv (size -
        (lineHeightOf env (chosenFont env) * ((pythonWrap 32 quote).length : Int) +
          6 * (((pythonWrap 32 quote).length : Int) - 1))) 2) := by
  show ((drawTextLoop env (chosenFont env) size _ (pythonWrap 32 quote)).map DrawnText.y).head? = _
  rcases hq : pythonWrap 32 quote with _ | ⟨l, ls⟩
  · rw [hq] at h; simp at h
  · simp only [drawTextLoop, List.map_cons, List.head?_cons, Option.some.injEq]
    congr 1
    ring

/-- Witness for C5 at a concrete capability, size and quote. -/
theorem raster_block_centering_witness :
    ((rasterize_svg_to_png (constEnv ⟨0, 0, 10, 12⟩) true [] [] 100
        (some "hi".data)).2.texts.map DrawnText.y).head? = some 44 := by
  have h := raster_block_centering (constEnv ⟨0, 0, 10, 12⟩) [] [] 100 "hi".data
    (by decide)
  rw [h]
  decide

/-- Claim C8: for every quote and size, the vector document starts with the
XML declaration and an `<svg>` tag declaring a `size`-by-`size` coordinate
space (`width`/`height` attributes and the `viewBox`), and contains the
full-bleed background rectangle and the inset rounded panel rectangle
(`x`,`y` = 40, width and height `size - 80`, `rx` = `ry` = 40,
opacity 0.9) as literal elements. -/
theorem svg_document_structure (quote : List Char) (size : Int) :
    svgHeader size <+: make_svg_text_block quote size ∧
    svgWidthAttr size <:+: make_svg_text_block quote size ∧
    svgHeightAttr size <:+: make_svg_text_block quote size ∧
    svgViewBoxAttr size <:+: make_svg_text_block quote size ∧
    svgBgRect <:+: make_svg_text_block quote size ∧
    svgPanelRect size <:+: make_svg_text_block quote size := by
  refine ⟨⟨svgBgRect ++ "\n  ".data ++ svgPanelRect size ++ svgMiddle size ++
      svgDivContent quote ++ svgFooter, by
        simp [make_svg_text_block, List.append_assoc]⟩, ?_, ?_, ?_, ?_, ?_⟩
  · exact ⟨"<?xml version=\"1.0\" encoding=\"UTF-8\"?>\n<svg xmlns=\"http://www.w3.org/2000/svg\" ".data,
      " ".data ++ svgHeightAttr size ++ " ".data ++ svgViewBoxAttr size ++ ">\n  ".data ++
        svgBgRect ++ "\n  ".data ++ svgPanelRect size ++ svgMiddle size ++
        svgDivContent quote ++ svgFooter, by
          simp [make_svg_text_block, svgHeader, List.append_assoc]⟩
  · exact ⟨"<?xml version=\"1.0\" encoding=\"UTF-8\"?>\n<svg xmlns=\"http://www.w3.org/2000/svg\" ".data ++
        svgWidthAttr size ++ " ".data,
      " ".data ++ svgViewBoxAttr size ++ ">\n  ".data ++
        svgBgRect ++ "\n  ".data ++ svgPanelRect size ++ svgMiddle size ++
        svgDivContent quote ++ svgFooter, by
          simp [make_svg_text_block, svgHeader, List.append_assoc]⟩
  · exact ⟨"<?xml version=\"1.0\" encoding=\"UTF-8\"?>\n<svg xmlns=\"http://www.w3.org/2000/svg\" ".data ++
        svgWidthAttr size ++ " ".data ++ svgHeightAttr size ++ " ".data,
      ">\n  ".data ++ svgBgRect ++ "\n  ".data ++ svgPanelRect size ++ svgMiddle size ++
        svgDivContent quote ++ svgFooter, by
          simp [make_svg_text_block, svgHeader, List.append_assoc]⟩
  · exact ⟨svgHeader size,
      "\n  ".data ++ svgPanelRect size ++ svgMiddle size ++
        svgDivContent quote ++ svgFooter, by
          simp [make_svg_text_block, List.append_assoc]⟩
  · exact ⟨svgHeader size ++ svgBgRect ++ "\n  ".data,
      svgMiddle size ++ svgDivContent quote ++ svgFooter, by
        simp [make_svg_text_block, List.append_assoc]⟩

/-- Dropping a trailing whitespace chunk cannot increase the combined
length. -/
theorem dropLastIfSpace_msum_le (cur : List (List Char)) :
    msum (dropLastIfSpace cur) ≤ msum cur := by
  unfold dropLastIfSpace
  rcases hgl : cur.getLast? with _ | c
  · exact le_refl _
  · by_cases hsp : chunkAllSpace c
    · simp only [if_pos hsp]
      exact msum_dropLast_le cur
    · simp [hsp]

/-- The chunks assembled for one line have combined length at most
`width`. -/
theorem fillLine_msum (width : Nat) (hw : 1 ≤ width) (chunks1 : List (List Char)) :
    msum (fillLine width chunks1).1 ≤ width := by
  have hlen : (takeFits width 0 chunks1).2.1 = msum (takeFits width 0 chunks1).1 := by
    simpa using takeFits_len width chunks1 0
  have hle : (takeFits width 0 chunks1).2.1 ≤ width :=
    takeFits_le width chunks1 0 (by omega)
  simp only [fillLine]
  split
  · rename_i c rest hrem
    by_cases hbig : c.length > width
    · simp only [if_pos hbig, msum, List.map_append, List.sum_append,
        List.map_cons, List.sum_cons, List.map_nil, List.sum_nil]
      have := handleLongWord_fits width (takeFits width 0 chunks1).2.1 c hw hle
      simp only [msum] at hlen
      omega
    · simp only [if_neg hbig]
      omega
  · simp only
    omega

/-- Any line emitted by one iteration of the wrapping loop is at most
`width` characters long. -/
theorem wrapStep_line_le (width : Nat) (hw : 1 ≤ width) (hasLines : Bool)
    (chunks : List (List Char)) (l : List Char)
    (hl : (wrapStep width hasLines chunks).1 = some l) : l.length ≤ width := by
  unfold wrapStep at hl
  by_cases hemp : (dropLastIfSpace (fillLine width (dropLeadingWs hasLines chunks)).1).isEmpty
  · simp [hemp] at hl
  · simp only [hemp, Bool.false_eq_true, if_neg, ite_false, Option.some.injEq] at hl
    subst hl
    rw [List.length_flatten]
    have h1 := dropLastIfSpace_msum_le (fillLine width (dropLeadingWs hasLines chunks)).1
    have h2 := fillLine_msum width hw (dropLeadingWs hasLines chunks)
    simp only [msum] at h1 h2
    omega

/-- All lines produced by the wrapping loop are at most `width` long. -/
theorem wrapChunksGo_le (width : Nat) (hw : 1 ≤ width) :
    ∀ (fuel : Nat) (hasLines : Bool) (chunks : List (List Char)) (line : List Char),
      line ∈ wrapChunksGo width fuel hasLines chunks → line.length ≤ width := by
  intro fuel
  induction fuel with
  | zero => intro hasLines chunks line h; simp [wrapChunksGo] at h
  | succ n ih =>
    intro hasLines chunks line h
    rcases chunks with _ | ⟨c, rest⟩
    · simp [wrapChunksGo] at h
    · rw [wrapChunksGo] at h
      rcases hs : (wrapStep width hasLines (c :: rest)).1 with _ | l
      · rw [hs] at h
        exact ih _ _ _ h
      · rw [hs] at h
        rcases List.mem_cons.1 h with h1 | h2
        · subst h1
          exact wrapStep_line_le width hw hasLines (c :: rest) line hs
        · exact ih _ _ _ h2

/-- Claim C2, amended: for every input quote, neither renderer's word-wrap
ever produces a line longer than 32 characters; a word longer than 32
characters is broken across lines rather than placed alone unbroken. -/
theorem wrap_width_bound (quote : List Char) (line : List Char)
    (h : line ∈ pythonWrap 32 quote) : line.length ≤ 32 := by
  unfold pythonWrap at h
  exact wrapChunksGo_le 32 (by omega) _ _ _ _ h

/-- Witness for the amended C2 at a concrete quote and line. -/
theorem wrap_width_bound_witness :
    List.replicate 32 'a' ∈ pythonWrap 32 (List.replicate 40 'a') ∧
    (List.replicate 32 'a').length ≤ 32 :=
  ⟨by decide, wrap_width_bound (List.replicate 40 'a') (List.replicate 32 'a') (by decide)⟩

/-- Claim C2, counterexample: a single 40-character word is not placed
alone on its line unbroken; `break_long_words=True` splits it at the width
into a 32-character and an 8-character line. -/
theorem long_word_broken_counterexample :
    pythonWrap 32 (List.replicate 40 'a') ≠ [List.replicate 40 'a'] ∧
    32 < (List.replicate 40 'a').length ∧
    pythonWrap 32 (List.replicate 40 'a') =
      [List.replicate 32 'a', List.replicate 8 'a'] := by
  refine ⟨?_, by decide, by decide⟩
  decide

/-! ### Clean single-space-separated words survive the round trip -/

/-- Tab expansion is the identity on tab-free text. -/
theorem expandTabsGo_id :
    ∀ (text : List Char), '\t' ∉ text → ∀ col, expandTabsGo text col = text := by
  intro text
  induction text with
  | nil => intro _ _; rfl
  | cons c rest ih =>
    intro h col
    have hct : c ≠ '\t' := fun hx => h (hx ▸ List.mem_cons_self c rest)
    have hrest : '\t' ∉ rest := fun hx => h (List.mem_cons_of_mem c hx)
    rw [expandTabsGo, if_neg hct]
    by_cases hnr : (c = '\n' || c = '\r') = true
    · rw [if_pos hnr, ih hrest 0]
    · rw [if_neg hnr, ih hrest (col + 1)]

/-- `_munge_whitespace` is the identity on text whose only whitespace is
the plain space. -/
theorem mungeWhitespace_clean (text : List Char)
    (h : ∀ c ∈ text, c = ' ' ∨ isWrapSpace c = false) :
    mungeWhitespace text = text := by
  have ht : '\t' ∉ text := by
    intro hx
    rcases h '\t' hx with h1 | h1
    · exact absurd h1 (by decide)
    · exact absurd h1 (by decide)
  unfold mungeWhitespace
  rw [expandTabsGo_id text ht 0]
  induction text with
  | nil => rfl
  | cons c rest ih =>
    rw [List.map_cons]
    rw [ih (fun x hx => h x (List.mem_cons_of_mem c hx))
      (fun hx => ht (List.mem_cons_of_mem c hx))]
    rcases h c (by simp) with h1 | h1
    · subst h1; rfl
    · rw [h1]
      simp

/-- `joinWords` of a single word is the word. -/
theorem joinWords_one (w : List Char) : joinWords [w] = w := by
  unfold joinWords
  exact intercalate_one _ _

/-- `joinWords` of two or more words starts with the first word and a
space. -/
theorem joinWords_cons₂ (w w2 : List Char) (t : List (List Char)) :
    joinWords (w :: w2 :: t) = w ++ ' ' :: joinWords (w2 :: t) := by
  unfold joinWords
  rw [intercalate_two]
  simp

/-- `joinWords` of a non-empty list extends its first word. -/
theorem joinWords_cons_ex (w : List Char) (t : List (List Char)) :
    ∃ r, joinWords (w :: t) = w ++ r := by
  rcases t with _ | ⟨w2, t2⟩
  · exact ⟨[], by rw [joinWords_one, List.append_nil]⟩
  · exact ⟨' ' :: joinWords (w2 :: t2), joinWords_cons₂ w w2 t2⟩

/-- Every character of a clean-word join is a space or a clean character. -/
theorem mem_joinWords_clean :
    ∀ (ws : List (List Char)), (∀ w ∈ ws, cleanWord w) →
      ∀ c ∈ joinWords ws, c = ' ' ∨ (isPySpace c = false ∧ c ≠ '-') := by
  intro ws
  induction ws with
  | nil => intro _ c hc; exact absurd hc (by simp [joinWords, List.intercalate])
  | cons w t ih =>
    intro hcl c hc
    rcases t with _ | ⟨w2, t2⟩
    · rw [joinWords_one] at hc
      exact Or.inr ((hcl w (by simp)).2.2 c hc)
    · rw [joinWords_cons₂] at hc
      rcases List.mem_append.1 hc with h1 | h1
      · exact Or.inr ((hcl w (by simp)).2.2 c h1)
      · rcases List.mem_cons.1 h1 with h2 | h2
        · exact Or.inl h2
        · exact ih (fun x hx => hcl x (List.mem_cons_of_mem w hx)) c h2

/-- Munging is the identity on a clean-word join. -/
theorem mungeWhitespace_joinWords (ws : List (List Char))
    (hcl : ∀ w ∈ ws, cleanWord w) :
    mungeWhitespace (joinWords ws) = joinWords ws := by
  apply mungeWhitespace_clean
  intro c hc
  rcases mem_joinWords_clean ws hcl c hc with h1 | h1
  · exact Or.inl h1
  · refine Or.inr ?_
    cases hws : isWrapSpace c
    · rfl
    · exact absurd (wrapSpace_pySpace c hws) (by simp [h1.1])

/-- The head of a clean-word join is a clean (non-space) character. -/
theorem joinWords_head_clean (w : List Char) (t : List (List Char))
    (hcl : ∀ x ∈ w :: t, cleanWord x) :
    ∃ d J, joinWords (w :: t) = d :: J ∧ isPySpace d = false ∧ d ≠ '-' := by
  obtain ⟨r, hr⟩ := joinWords_cons_ex w t
  obtain ⟨hne, _, hch⟩ := hcl w (by simp)
  rcases w with _ | ⟨d, w'⟩
  · exact absurd rfl hne
  · exact ⟨d, w' ++ r, by rw [hr]; rfl,
      (hch d (by simp)).1, (hch d (by simp)).2⟩

/-- A clean-word join of a non-empty word list is non-empty. -/
theorem joinWords_ne_nil (ws : List (List Char)) (hne : ws ≠ [])
    (hcl : ∀ w ∈ ws, cleanWord w) : joinWords ws ≠ [] := by
  rcases ws with _ | ⟨w, t⟩
  · exact absurd rfl hne
  · obtain ⟨d, J, hdJ, _, _⟩ := joinWords_head_clean w t hcl
    rw [hdJ]
    exact List.cons_ne_nil d J

/-- Joining two non-empty groups of words inserts a single space at the
group boundary. -/
theorem joinWords_append (g ws' : List (List Char)) (hg : g ≠ [])
    (hws : ws' ≠ []) :
    joinWords (g ++ ws') = joinWords g ++ ' ' :: joinWords ws' := by
  induction g with
  | nil => exact absurd rfl hg
  | cons w t ih =>
    rcases t with _ | ⟨w2, t2⟩
    · rcases ws' with _ | ⟨v, vs⟩
      · exact absurd rfl hws
      · rw [joinWords_one]
        exact joinWords_cons₂ w v vs
    · calc joinWords ((w :: w2 :: t2) ++ ws')
          = w ++ ' ' :: joinWords ((w2 :: t2) ++ ws') :=
            joinWords_cons₂ w w2 (t2 ++ ws')
        _ = w ++ ' ' :: (joinWords (w2 :: t2) ++ ' ' :: joinWords ws') := by
            rw [ih (List.cons_ne_nil w2 t2)]
        _ = (w ++ ' ' :: joinWords (w2 :: t2)) ++ ' ' :: joinWords ws' := by
            simp [List.append_assoc]
        _ = joinWords (w :: w2 :: t2) ++ ' ' :: joinWords ws' := by
            rw [joinWords_cons₂]

/-- No em-dash match can start at a non-hyphen character. -/
theorem emDashAhead_not_hyphen (c : Char) (h : c ≠ '-') (rs : List Char) :
    emDashAhead (c :: rs) = false := by
  unfold emDashAhead
  rw [List.dropWhile_cons_of_neg (by simp [h]),
    List.takeWhile_cons_of_neg (by simp [h])]
  simp

/-- The word scanner consumes a whole clean word and stops at the space or
end of text that follows it. -/
theorem wordScan_clean :
    ∀ (rest : List Char), (∀ c ∈ rest, isPySpace c = false ∧ c ≠ '-') →
      ∀ (tail : List Char), (tail = [] ∨ ∃ t, tail = ' ' :: t) →
      ∀ (chunkRev prevRev : List Char),
        wordScan prevRev chunkRev (rest ++ tail) =
          (chunkRev.reverse ++ rest, tail) := by
  intro rest
  induction rest with
  | nil =>
    intro _ tail htail chunkRev prevRev
    rcases htail with h0 | ⟨t, ht⟩
    · subst h0; simp [wordScan]
    · subst ht
      rw [List.nil_append, wordScan, if_pos rfl]
      simp
  | cons c cs ih =>
    intro hclean tail htail chunkRev prevRev
    have hc := hclean c (by simp)
    have hcs : c ≠ ' ' := fun h => absurd (h ▸ hc.1) (by decide)
    rw [List.cons_append, wordScan, if_neg hcs,
      if_neg (by simp [hc.2]),
      if_neg (by simp [emDashAhead_not_hyphen c hc.2]),
      ih (fun x hx => hclean x (List.mem_cons_of_mem c hx)) tail htail
        (c :: chunkRev) prevRev]
    simp

/-- The chunk scanner emits nothing on an empty text. -/
theorem splitChunksGo_empty (prevRev : List Char) :
    ∀ fuel, splitChunksGo fuel prevRev [] = [] := by
  intro fuel
  cases fuel with
  | zero => rfl
  | succ n => rfl

/-- On a join of clean words, `_split` produces exactly the words
interleaved with single-space chunks. -/
theorem splitChunks_clean :
    ∀ (ws : List (List Char)), ws ≠ [] → (∀ w ∈ ws, cleanWord w) →
      ∀ (prevRev : List Char) (fuel : Nat), 2 * ws.length ≤ fuel →
        splitChunksGo fuel prevRev (joinWords ws) = interleaveSp ws := by
  intro ws
  induction ws with
  | nil => intro h; exact absurd rfl h
  | cons w t ih =>
    intro _ hcl prevRev fuel hfuel
    obtain ⟨hwne, _, hwch⟩ := hcl w (by simp)
    rcases w with _ | ⟨c, w'⟩
    · exact absurd rfl hwne
    · have hcc := hwch c (by simp)
      have hcsp : c ≠ ' ' := fun h => absurd (h ▸ hcc.1) (by decide)
      rcases t with _ | ⟨w2, t2⟩
      · rcases fuel with _ | f
        · simp at hfuel
        · rw [joinWords_one, splitChunksGo]
          rw [if_neg hcsp, if_neg (by simp [emDashAhead_not_hyphen c hcc.2])]
          rw [show w' = w' ++ [] by rw [List.append_nil], wordScan_clean w'
            (fun x hx => hwch x (List.mem_cons_of_mem c hx)) [] (Or.inl rfl)
            [c] prevRev]
          rw [splitChunksGo_empty]
          simp [interleaveSp]
      · rcases fuel with _ | f
        · simp at hfuel
        · rcases f with _ | f2
          · simp only [List.length_cons] at hfuel; omega
          · obtain ⟨d, J, hdJ, hdsp, _⟩ :=
              joinWords_head_clean w2 t2
                (fun x hx => hcl x (List.mem_cons_of_mem _ hx))
            have hdne : d ≠ ' ' := fun h => absurd (h ▸ hdsp) (by decide)
            rw [joinWords_cons₂, List.cons_append, splitChunksGo]
            rw [if_neg hcsp, if_neg (by simp [emDashAhead_not_hyphen c hcc.2])]
            rw [wordScan_clean w'
              (fun x hx => hwch x (List.mem_cons_of_mem c hx))
              (' ' :: joinWords (w2 :: t2)) (Or.inr ⟨_, rfl⟩) [c] prevRev]
            rw [splitChunksGo, if_pos rfl]
            rw [hdJ, List.takeWhile_cons_of_pos (by decide),
              List.takeWhile_cons_of_neg (by simp [hdne]),
              List.dropWhile_cons_of_pos (by decide),
              List.dropWhile_cons_of_neg (by simp [hdne]), ← hdJ]
            rw [ih (List.cons_ne_nil w2 t2)
              (fun x hx => hcl x (List.mem_cons_of_mem _ hx)) _ f2
              (by simp only [List.length_cons] at hfuel ⊢; omega)]
            rfl

/-- Unfolding `takeFits` when the next chunk fits. -/
theorem takeFits_cons_fit (width curLen : Nat) (c : List Char)
    (rest : List (List Char)) (h : curLen + c.length ≤ width) :
    takeFits width curLen (c :: rest) =
      (c :: (takeFits width (curLen + c.length) rest).1,
       (takeFits width (curLen + c.length) rest).2.1,
       (takeFits width (curLen + c.length) rest).2.2) := by
  rw [takeFits, if_pos h]

/-- Unfolding `takeFits` when the next chunk does not fit. -/
theorem takeFits_cons_nofit (width curLen : Nat) (c : List Char)
    (rest : List (List Char)) (h : ¬ curLen + c.length ≤ width) :
    takeFits width curLen (c :: rest) = ([], curLen, c :: rest) := by
  rw [takeFits, if_neg h]

/-- An interleaving of a non-empty word list starts with its first word. -/
theorem interleaveSp_cons (w : List Char) (t : List (List Char)) :
    ∃ X, interleaveSp (w :: t) = w :: X := by
  rcases t with _ | ⟨w2, t2⟩
  · exact ⟨[], rfl⟩
  · exact ⟨[' '] :: interleaveSp (w2 :: t2), rfl⟩

/-- Flattening the interleaved chunks recovers the single-space join. -/
theorem flatten_interleaveSp :
    ∀ ws : List (List Char), (interleaveSp ws).flatten = joinWords ws := by
  intro ws
  induction ws with
  | nil => simp [interleaveSp, joinWords, List.intercalate]
  | cons w t ih =>
    rcases t with _ | ⟨w2, t2⟩
    · rw [joinWords_one]
      simp [interleaveSp]
    · show (w :: [' '] :: interleaveSp (w2 :: t2)).flatten = _
      rw [List.flatten_cons, List.flatten_cons, ih, joinWords_cons₂]
      rfl

/-- The last chunk of an interleaving is one of the words. -/
theorem interleaveSp_getLast (g : List (List Char)) (hg : g ≠ []) :
    ∃ w ∈ g, (interleaveSp g).getLast? = some w := by
  induction g with
  | nil => exact absurd rfl hg
  | cons w t ih =>
    rcases t with _ | ⟨w2, t2⟩
    · exact ⟨w, by simp, rfl⟩
    · obtain ⟨v, hv, hvl⟩ := ih (List.cons_ne_nil w2 t2)
      refine ⟨v, List.mem_cons_of_mem w hv, ?_⟩
      show (w :: [' '] :: interleaveSp (w2 :: t2)).getLast? = some v
      obtain ⟨X, hX⟩ := interleaveSp_cons w2 t2
      rw [hX] at hvl ⊢
      rw [List.getLast?_cons_cons, List.getLast?_cons_cons]
      exact hvl

/-- A clean word is not an all-whitespace chunk. -/
theorem chunkAllSpace_word (w : List Char) (hw : cleanWord w) :
    chunkAllSpace w = false := by
  obtain ⟨hne, _, hch⟩ := hw
  rcases w with _ | ⟨c, w'⟩
  · exact absurd rfl hne
  · unfold chunkAllSpace
    simp [List.all_cons, (hch c (by simp)).1]

/-- The trailing-whitespace drop leaves an interleaving of clean words
unchanged (its last chunk is a word). -/
theorem dropLastIfSpace_interleave (g : List (List Char)) (hg : g ≠ [])
    (hcl : ∀ w ∈ g, cleanWord w) :
    dropLastIfSpace (interleaveSp g) = interleaveSp g := by
  obtain ⟨w, hw, hwl⟩ := interleaveSp_getLast g hg
  have hfalse := chunkAllSpace_word w (hcl w hw)
  simp [dropLastIfSpace, hwl, hfalse]

/-- The leading-whitespace drop leaves an interleaving of clean words
unchanged (its first chunk is a word). -/
theorem dropLeadingWs_interleave (hasLines : Bool) (g : List (List Char))
    (hg : g ≠ []) (hcl : ∀ w ∈ g, cleanWord w) :
    dropLeadingWs hasLines (interleaveSp g) = interleaveSp g := by
  rcases g with _ | ⟨w, t⟩
  · exact absurd rfl hg
  · obtain ⟨X, hX⟩ := interleaveSp_cons w t
    have hfalse := chunkAllSpace_word w (hcl w (by simp))
    rw [hX]
    simp [dropLeadingWs, hfalse]

/-- On an interleaving of clean words, the greedy inner loop stops at a
chunk boundary: it consumes a group of leading words, and the separating
space either does not exist (everything fit), stays in the remainder, or
ends the consumed part. -/
theorem takeFits_clean :
    ∀ (ws : List (List Char)), ws ≠ [] → (∀ w ∈ ws, cleanWord w) →
      ∀ curLen : Nat,
        ∃ g ws' L, ws = g ++ ws' ∧
          ((takeFits 32 curLen (interleaveSp ws) =
              (interleaveSp g, L, interleaveSp ws') ∧
            ((g = [] ∧ 32 < curLen + (ws.headD []).length) ∨ ws' = [])) ∨
           (g ≠ [] ∧ ws' ≠ [] ∧
            takeFits 32 curLen (interleaveSp ws) =
              (interleaveSp g, L, [' '] :: interleaveSp ws')) ∨
           (g ≠ [] ∧ ws' ≠ [] ∧
            takeFits 32 curLen (interleaveSp ws) =
              (interleaveSp g ++ [[' ']], L, interleaveSp ws'))) := by
  intro ws
  induction ws with
  | nil => intro h; exact absurd rfl h
  | cons w t iht =>
    intro _ hcl curLen
    rcases t with _ | ⟨w2, t2⟩
    · by_cases hfit : curLen + w.length ≤ 32
      · refine ⟨[w], [], curLen + w.length, by simp, Or.inl ⟨?_, Or.inr rfl⟩⟩
        show takeFits 32 curLen [w] = _
        rw [takeFits_cons_fit 32 curLen w [] hfit]
        simp [takeFits, interleaveSp]
      · refine ⟨[], [w], curLen, by simp, Or.inl ⟨?_, Or.inl ⟨rfl, ?_⟩⟩⟩
        · show takeFits 32 curLen [w] = _
          rw [takeFits_cons_nofit 32 curLen w [] hfit]
          simp [interleaveSp]
        · simp only [List.headD_cons]
          omega
    · by_cases hfit1 : curLen + w.length ≤ 32
      · by_cases hfit2 : curLen + w.length + 1 ≤ 32
        · obtain ⟨g', ws'', L', hsplit', hcases'⟩ :=
            iht (List.cons_ne_nil w2 t2)
              (fun x hx => hcl x (List.mem_cons_of_mem w hx))
              (curLen + w.length + 1)
          have hstep : takeFits 32 curLen (interleaveSp (w :: w2 :: t2)) =
              (w :: [' '] ::
                 (takeFits 32 (curLen + w.length + 1) (interleaveSp (w2 :: t2))).1,
               (takeFits 32 (curLen + w.length + 1) (interleaveSp (w2 :: t2))).2.1,
               (takeFits 32 (curLen + w.length + 1) (interleaveSp (w2 :: t2))).2.2) := by
            show takeFits 32 curLen (w :: [' '] :: interleaveSp (w2 :: t2)) = _
            rw [takeFits_cons_fit 32 curLen w _ hfit1]
            rw [takeFits_cons_fit 32 (curLen + w.length) [' '] _
              (by simp only [List.length_singleton]; omega)]
            simp only [List.length_singleton]
          rcases hcases' with ⟨heq', hside⟩ | ⟨hg', hws', heq'⟩ | ⟨hg', hws', heq'⟩
          · rcases hside with ⟨hg0, _⟩ | hws0
            · subst hg0
              simp only [List.nil_append] at hsplit'
              subst hsplit'
              refine ⟨[w], w2 :: t2, L', by simp, Or.inr (Or.inr
                ⟨List.cons_ne_nil _ _, List.cons_ne_nil _ _, ?_⟩)⟩
              rw [hstep, heq']
              simp [interleaveSp]
            · subst hws0
              simp only [List.append_nil] at hsplit'
              subst hsplit'
              refine ⟨w :: w2 :: t2, [], L', by simp, Or.inl ⟨?_, Or.inr rfl⟩⟩
              rw [hstep, heq']
              simp [interleaveSp]
          · refine ⟨w :: g', ws'', L', ?_, Or.inr (Or.inl
              ⟨List.cons_ne_nil _ _, hws', ?_⟩)⟩
            · rw [List.cons_append, ← hsplit']
            · rw [hstep, heq']
              rcases g' with _ | ⟨gw, gt⟩
              · exact absurd rfl hg'
              · simp [interleaveSp]
          · refine ⟨w :: g', ws'', L', ?_, Or.inr (Or.inr
              ⟨List.cons_ne_nil _ _, hws', ?_⟩)⟩
            · rw [List.cons_append, ← hsplit']
            · rw [hstep, heq']
              rcases g' with _ | ⟨gw, gt⟩
              · exact absurd rfl hg'
              · simp [interleaveSp]
        · refine ⟨[w], w2 :: t2, curLen + w.length, by simp,
            Or.inr (Or.inl ⟨List.cons_ne_nil _ _, List.cons_ne_nil _ _, ?_⟩)⟩
          show takeFits 32 curLen (w :: [' '] :: interleaveSp (w2 :: t2)) = _
          rw [takeFits_cons_fit 32 curLen w _ hfit1]
          rw [takeFits_cons_nofit 32 (curLen + w.length) [' '] _
            (by simp only [List.length_singleton]; omega)]
          simp [interleaveSp]
      · refine ⟨[], w :: w2 :: t2, curLen, rfl, Or.inl ⟨?_, Or.inl ⟨rfl, ?_⟩⟩⟩
        · show takeFits 32 curLen (w :: [' '] :: interleaveSp (w2 :: t2)) = _
          rw [takeFits_cons_nofit 32 curLen w _ hfit1]
          simp [interleaveSp]
        · simp only [List.headD_cons]
          omega

/-- An interleaving of a non-empty word list is a non-empty chunk list. -/
theorem interleaveSp_ne_nil (g : List (List Char)) (hg : g ≠ []) :
    (interleaveSp g).isEmpty = false := by
  rcases g with _ | ⟨w, t⟩
  · exact absurd rfl hg
  · obtain ⟨X, hX⟩ := interleaveSp_cons w t
    rw [hX]
    rfl

/-- The trailing-whitespace drop removes a final single-space chunk. -/
theorem dropLastIfSpace_concat_space (cur : List (List Char)) :
    dropLastIfSpace (cur ++ [[' ']]) = cur := by
  have h : chunkAllSpace [' '] = true := by decide
  simp [dropLastIfSpace, List.getLast?_concat, h, List.dropLast_concat]

/-- One outer-loop iteration on an interleaving of clean words emits the
single-space join of a non-empty group of leading words and leaves the
interleaving of the remaining words, possibly behind one space chunk. -/
theorem wrapStep_clean (ws : List (List Char)) (hne : ws ≠ [])
    (hcl : ∀ w ∈ ws, cleanWord w) (hasLines : Bool) :
    ∃ g ws', ws = g ++ ws' ∧ g ≠ [] ∧
      (wrapStep 32 hasLines (interleaveSp ws)).1 = some (joinWords g) ∧
      ((wrapStep 32 hasLines (interleaveSp ws)).2 = interleaveSp ws' ∨
       (ws' ≠ [] ∧
        (wrapStep 32 hasLines (interleaveSp ws)).2 = [' '] :: interleaveSp ws')) := by
  have hdrop := dropLeadingWs_interleave hasLines ws hne hcl
  obtain ⟨g, ws', L, hsplit, hcases⟩ := takeFits_clean ws hne hcl 0
  have hclg : ∀ x ∈ g, cleanWord x := fun x hx =>
    hcl x (by rw [hsplit]; exact List.mem_append_left ws' hx)
  have hgne : g ≠ [] := by
    rcases hcases with ⟨_, hside⟩ | ⟨hg', _, _⟩ | ⟨hg', _, _⟩
    · rcases hside with ⟨hg0, hlen⟩ | hws0
      · exfalso
        rcases ws with _ | ⟨w, t⟩
        · exact absurd rfl hne
        · have := (hcl w (by simp)).2.1
          simp only [List.headD_cons] at hlen
          omega
      · intro hg0
        apply hne
        rw [hsplit, hg0, hws0]
        rfl
    · exact hg'
    · exact hg'
  rcases hcases with ⟨heq, hside⟩ | ⟨_, hws', heq⟩ | ⟨_, hws', heq⟩
  · have hws0 : ws' = [] := by
      rcases hside with ⟨hg0, _⟩ | h
      · exact absurd hg0 hgne
      · exact h
    subst hws0
    have hfill : fillLine 32 (interleaveSp ws) = (interleaveSp g, []) := by
      unfold fillLine
      rw [heq]
      simp [interleaveSp]
    have hstep : wrapStep 32 hasLines (interleaveSp ws) =
        (some (joinWords g), []) := by
      simp [wrapStep, hdrop, hfill, dropLastIfSpace_interleave g hgne hclg,
        interleaveSp_ne_nil g hgne, flatten_interleaveSp]
    exact ⟨g, [], hsplit, hgne, by rw [hstep], Or.inl (by rw [hstep]; rfl)⟩
  · have hfill : fillLine 32 (interleaveSp ws) =
        (interleaveSp g, [' '] :: interleaveSp ws') := by
      unfold fillLine
      rw [heq]
      simp
    have hstep : wrapStep 32 hasLines (interleaveSp ws) =
        (some (joinWords g), [' '] :: interleaveSp ws') := by
      simp [wrapStep, hdrop, hfill, dropLastIfSpace_interleave g hgne hclg,
        interleaveSp_ne_nil g hgne, flatten_interleaveSp]
    exact ⟨g, ws', hsplit, hgne, by rw [hstep], Or.inr ⟨hws', by rw [hstep]⟩⟩
  · rcases hws2 : ws' with _ | ⟨v, vs⟩
    · exact absurd hws2 hws'
    · subst hws2
      obtain ⟨X, hX⟩ := interleaveSp_cons v vs
      have hv32 : v.length ≤ 32 :=
        (hcl v (by rw [hsplit]; exact List.mem_append_right g (by simp))).2.1
      have hfill : fillLine 32 (interleaveSp ws) =
          (interleaveSp g ++ [[' ']], interleaveSp (v :: vs)) := by
        unfold fillLine
        rw [heq, hX]
        have hnot : ¬ (v.length > 32) := by omega
        simp [hnot]
      have hstep : wrapStep 32 hasLines (interleaveSp ws) =
          (some (joinWords g), interleaveSp (v :: vs)) := by
        simp [wrapStep, hdrop, hfill, dropLastIfSpace_concat_space,
          interleaveSp_ne_nil g hgne, flatten_interleaveSp]
      exact ⟨g, v :: vs, hsplit, hgne, by rw [hstep], Or.inl (by rw [hstep])⟩

/-- Dropping the leading space chunk reduces an iteration on a space-led
chunk list to an iteration on its tail. -/
theorem wrapStep_drop_space (width : Nat) (chunks : List (List Char)) :
    wrapStep width true ([' '] :: chunks) = wrapStep width false chunks := by
  have hc : chunkAllSpace [' '] = true := by decide
  have h : dropLeadingWs true ([' '] :: chunks) = chunks := by
    simp [dropLeadingWs, hc]
  have h2 : dropLeadingWs false chunks = chunks := by
    rcases chunks with _ | ⟨c, r⟩
    · rfl
    · simp [dropLeadingWs]
  simp [wrapStep, h, h2]

/-- The outer loop emits nothing once the chunks are exhausted. -/
theorem wrapChunksGo_empty (width : Nat) :
    ∀ (fuel : Nat) (hasLines : Bool), wrapChunksGo width fuel hasLines [] = [] := by
  intro fuel hasLines
  cases fuel with
  | zero => rfl
  | succ n => rfl

/-- One unfolding of the outer loop on a non-empty chunk list. -/
theorem wrapChunksGo_cons_eq (width fuel : Nat) (hasLines : Bool)
    (chunks : List (List Char)) (hne : chunks ≠ []) :
    wrapChunksGo width (fuel + 1) hasLines chunks =
      match (wrapStep width hasLines chunks).1 with
      | some l => l :: wrapChunksGo width fuel true (wrapStep width hasLines chunks).2
      | none => wrapChunksGo width fuel hasLines (wrapStep width hasLines chunks).2 := by
  rcases chunks with _ | ⟨c, rest⟩
  · exact absurd rfl hne
  · rfl

/-- An interleaving of a non-empty word list is not the empty chunk list. -/
theorem interleaveSp_ne_nil' (ws : List (List Char)) (hne : ws ≠ []) :
    interleaveSp ws ≠ [] := by
  rcases ws with _ | ⟨w, t⟩
  · exact absurd rfl hne
  · obtain ⟨X, hX⟩ := interleaveSp_cons w t
    rw [hX]
    exact List.cons_ne_nil w X

/-- Tail step of the loop argument: once an iteration emitted the join of
a leading group, joining the recursively wrapped rest with single spaces
rebuilds the join of all the words. -/
theorem wrapGo_clean_tail (n : Nat)
    (ih : ∀ ws2 : List (List Char), ws2.length ≤ n → ws2 ≠ [] →
      (∀ w ∈ ws2, cleanWord w) →
      ∀ (fuel : Nat) (hasLines : Bool) (chunks : List (List Char)),
        ws2.length ≤ fuel →
        (chunks = interleaveSp ws2 ∨
          (hasLines = true ∧ chunks = [' '] :: interleaveSp ws2)) →
        List.intercalate [' '] (wrapChunksGo 32 fuel hasLines chunks) =
          joinWords ws2)
    (ws g ws' : List (List Char)) (hsplit : ws = g ++ ws') (hgne : g ≠ [])
    (hlen : ws.length ≤ n + 1) (hcl : ∀ w ∈ ws, cleanWord w)
    (f : Nat) (hfuel : ws.length ≤ f + 1)
    (rem : List (List Char))
    (hrem : rem = interleaveSp ws' ∨
      (ws' ≠ [] ∧ rem = [' '] :: interleaveSp ws')) :
    List.intercalate [' '] (joinWords g :: wrapChunksGo 32 f true rem) =
      joinWords ws := by
  have hg1 : 1 ≤ g.length := by
    rcases g with _ | ⟨a, b⟩
    · exact absurd rfl hgne
    · simp
  rcases hws0 : ws' with _ | ⟨v, vs⟩
  · subst hws0
    rcases hrem with hr | ⟨hne', _⟩
    · rw [List.append_nil] at hsplit
      subst hsplit
      rw [hr]
      simp only [interleaveSp]
      rw [wrapChunksGo_empty]
      exact intercalate_one _ _
    · exact absurd rfl hne'
  · subst hws0
    have hne2 : v :: vs ≠ [] := List.cons_ne_nil v vs
    have hcl2 : ∀ w ∈ v :: vs, cleanWord w := fun x hx =>
      hcl x (by rw [hsplit]; exact List.mem_append_right g hx)
    have hlens := congrArg List.length hsplit
    rw [List.length_append] at hlens
    have hlen2 : (v :: vs).length ≤ n := by omega
    have hfl2 : (v :: vs).length ≤ f := by omega
    have hrec := ih (v :: vs) hlen2 hne2 hcl2 f true rem hfl2
      (by
        rcases hrem with hr | ⟨_, hr⟩
        · exact Or.inl hr
        · exact Or.inr ⟨rfl, hr⟩)
    rcases hl : wrapChunksGo 32 f true rem with _ | ⟨l2, ls⟩
    · rw [hl] at hrec
      have hj : joinWords (v :: vs) = [] := by
        rw [← hrec]
        rfl
      exact absurd hj (joinWords_ne_nil _ hne2 hcl2)
    · rw [hl] at hrec
      rw [intercalate_two, hrec, hsplit,
        joinWords_append g (v :: vs) hgne hne2]
      simp [List.append_assoc]

/-- The outer `_wrap_chunks` loop on an interleaving of clean words emits
lines whose single-space join is the join of all the words. -/
theorem wrapGo_clean :
    ∀ (n : Nat) (ws : List (List Char)), ws.length ≤ n → ws ≠ [] →
      (∀ w ∈ ws, cleanWord w) →
      ∀ (fuel : Nat) (hasLines : Bool) (chunks : List (List Char)),
        ws.length ≤ fuel →
        (chunks = interleaveSp ws ∨
          (hasLines = true ∧ chunks = [' '] :: interleaveSp ws)) →
        List.intercalate [' '] (wrapChunksGo 32 fuel hasLines chunks) =
          joinWords ws := by
  intro n
  induction n with
  | zero =>
    intro ws hlen hne
    exact absurd (List.eq_nil_of_length_eq_zero (Nat.le_zero.1 hlen)) hne
  | succ n ih =>
    intro ws hlen hne hcl fuel hasLines chunks hfuel hchunks
    rcases fuel with _ | f
    · exfalso
      rcases ws with _ | ⟨w, t⟩
      · exact absurd rfl hne
      · simp at hfuel
    · rcases hchunks with hch | ⟨hhl, hch⟩
      · subst hch
        obtain ⟨g, ws', hsplit, hgne, hline, hrem⟩ :=
          wrapStep_clean ws hne hcl hasLines
        rw [wrapChunksGo_cons_eq 32 f hasLines (interleaveSp ws)
          (interleaveSp_ne_nil' ws hne), hline]
        exact wrapGo_clean_tail n ih ws g ws' hsplit hgne hlen hcl f hfuel _ hrem
      · subst hhl
        subst hch
        obtain ⟨g, ws', hsplit, hgne, hline, hrem⟩ :=
          wrapStep_clean ws hne hcl false
        rw [wrapChunksGo_cons_eq 32 f true ([' '] :: interleaveSp ws)
          (List.cons_ne_nil _ _), wrapStep_drop_space 32 (interleaveSp ws),
          hline]
        exact wrapGo_clean_tail n ih ws g ws' hsplit hgne hlen hcl f hfuel _ hrem

/-- `joinWords` of `n` non-empty words has at least `2n - 1` characters. -/
theorem joinWords_length (ws : List (List Char)) (hcl : ∀ w ∈ ws, cleanWord w) :
    2 * ws.length ≤ (joinWords ws).length + 1 := by
  induction ws with
  | nil => simp
  | cons w t ih =>
    have hw1 : 1 ≤ w.length :=
      List.length_pos.2 (hcl w (by simp)).1
    rcases t with _ | ⟨w2, t2⟩
    · rw [joinWords_one]
      simp only [List.length_cons, List.length_nil]
      omega
    · have ih2 := ih (fun x hx => hcl x (List.mem_cons_of_mem w hx))
      rw [joinWords_cons₂, List.length_append]
      simp only [List.length_cons] at ih2 ⊢
      omega

/-- An interleaving has at least as many chunks as there are words. -/
theorem interleaveSp_length :
    ∀ ws : List (List Char), ws.length ≤ (interleaveSp ws).length := by
  intro ws
  induction ws with
  | nil => simp [interleaveSp]
  | cons w t ih =>
    rcases t with _ | ⟨w2, t2⟩
    · simp [interleaveSp]
    · show (w :: w2 :: t2).length ≤ (w :: [' '] :: interleaveSp (w2 :: t2)).length
      simp only [List.length_cons] at ih ⊢
      omega

/-- On a clean-word join, wrapping and rejoining with single spaces is the
identity. -/
theorem intercalate_wrap_clean (ws : List (List Char)) (hne : ws ≠ [])
    (hcl : ∀ w ∈ ws, cleanWord w) :
    List.intercalate [' '] (pythonWrap 32 (joinWords ws)) = joinWords ws := by
  unfold pythonWrap pySplit
  rw [mungeWhitespace_joinWords ws hcl]
  rw [splitChunks_clean ws hne hcl [] ((joinWords ws).length + 1)
    (joinWords_length ws hcl)]
  apply wrapGo_clean ws.length ws (le_refl _) hne hcl _ false _ ?_ (Or.inl rfl)
  have h1 := interleaveSp_length ws
  unfold chunksFuel
  omega

/-- Claim C1, amended: for every quote with a visible (non-whitespace)
character that does not itself contain the literal text `"<br/>"`, the
list of lines embedded in the vector document between the `<br/>` markers
is identical, element by element and in order, to the list of lines drawn
by the raster renderer for the same quote; both are the greedy
32-character wrap of the quote. -/
theorem svg_and_raster_same_lines
    (env : PILEnv) (svgPath pngPath : List Char) (size : Int)
    (quote : List Char)
    (hvis : ∃ c ∈ quote, isPySpace c = false)
    (hm : ¬ brMarker <:+: quote) :
    svgEmbeddedLines quote =
      ((rasterize_svg_to_png env true svgPath pngPath size (some quote)).2.texts).map
        DrawnText.text ∧
    svgEmbeddedLines quote = pythonWrap 32 quote := by
  have hcore := embedded_eq_wrap quote hvis hm
  refine ⟨?_, hcore⟩
  rw [hcore]
  show _ = (drawTextLoop env (chosenFont env) size _ _).map DrawnText.text
  rw [drawTextLoop_texts]

/-- Witness for the amended C1 at a concrete quote from the table. -/
theorem svg_and_raster_same_lines_witness :
    (∃ c ∈ "Progress, not perfection.".data, isPySpace c = false) ∧
    ¬ brMarker <:+: "Progress, not perfection.".data ∧
    svgEmbeddedLines "Progress, not perfection.".data =
      ((rasterize_svg_to_png (constEnv ⟨0, 0, 7, 9⟩) true [] [] 1080
          (some "Progress, not perfection.".data)).2.texts).map DrawnText.text :=
  ⟨by decide, by decide,
    (svg_and_raster_same_lines (constEnv ⟨0, 0, 7, 9⟩) [] [] 1080
      "Progress, not perfection.".data (by decide) (by decide)).1⟩

/-- Claim C1, counterexample: for the quote `"see<br/>me"`, which contains
the literal marker text, the lines embedded in the vector document are not
the lines drawn by the raster renderer: the embedded text splits at the
quote's own marker as well. -/
theorem svg_raster_lines_divergence :
    svgEmbeddedLines "see<br/>me".data ≠
      ((rasterize_svg_to_png (constEnv ⟨0, 0, 7, 9⟩) true [] [] 1080
          (some "see<br/>me".data)).2.texts).map DrawnText.text := by
  decide

/-- Claim C3, amended: for every quote that is a single-space join of
clean words (non-empty, at most 32 characters, free of whitespace and
hyphens) and that does not itself contain the literal text `"<br/>"`,
replacing each `<br/>` marker of the text embedded in the vector document
with a single space yields exactly the original quote. -/
theorem embedded_strip_roundtrip (words : List (List Char))
    (hne : words ≠ []) (hcl : ∀ w ∈ words, cleanWord w)
    (hm : ¬ brMarker <:+: joinWords words) :
    replaceMarker brMarker [' '] (svgDivContent (joinWords words)) =
      joinWords words := by
  have hvis : ∃ c ∈ joinWords words, isPySpace c = false := by
    rcases words with _ | ⟨w, t⟩
    · exact absurd rfl hne
    · obtain ⟨d, J, hdJ, hdsp, _⟩ := joinWords_head_clean w t hcl
      exact ⟨d, by rw [hdJ]; simp, hdsp⟩
  unfold replaceMarker svgDivContent pythonFill
  rw [replaceNewlines_intercalate brMarker (pythonWrap 32 (joinWords words))
    (fun l hl => pythonWrap_no_newline _ l hl)]
  rw [splitOnMarker_intercalate brMarker (by decide) brMarker_no_overlap
    (pythonWrap 32 (joinWords words)) (pythonWrap_ne_nil _ hvis)
    (fun l hl => pythonWrap_no_marker _ l hm hl)]
  exact intercalate_wrap_clean words hne hcl

/-- Witness for the amended C3 at a concrete three-word quote. -/
theorem embedded_strip_roundtrip_witness :
    (["Progress,".data, "not".data, "perfection.".data] ≠
      ([] : List (List Char))) ∧
    (∀ w ∈ ["Progress,".data, "not".data, "perfection.".data], cleanWord w) ∧
    ¬ brMarker <:+:
      joinWords ["Progress,".data, "not".data, "perfection.".data] ∧
    replaceMarker brMarker [' ']
        (svgDivContent
          (joinWords ["Progress,".data, "not".data, "perfection.".data])) =
      joinWords ["Progress,".data, "not".data, "perfection.".data] :=
  ⟨by decide,
    by
      intro w hw
      fin_cases hw <;> exact ⟨by decide, by decide, by decide⟩,
    by decide,
    embedded_strip_roundtrip ["Progress,".data, "not".data, "perfection.".data]
      (by decide)
      (by
        intro w hw
        fin_cases hw <;> exact ⟨by decide, by decide, by decide⟩)
      (by decide)⟩

/-- Claim C3, counterexample: for the quote `"a "`, replacing the markers
of the embedded text by spaces yields `"a"`, not the original quote (the
wrap drops the trailing whitespace). -/
theorem embedded_strip_counterexample :
    replaceMarker brMarker [' '] (svgDivContent "a ".data) ≠ "a ".data := by
  decide

end QuoteGen
